import Mathlib

/-!
Verification of the helper scripts of the multiloader template repository
(`scripts/add_service.py`, `scripts/set_minecraft_version.py`,
`scripts/setup_mod.py`, `scripts/moddy.py`).

Python strings are modelled as `List Char` (`Str`), pure functions are
translated directly from the Python source, I/O (HTTP fetches, the file
system, confirmation prompts) is passed in explicitly as arguments, and a
Python function that can raise is modelled with `Except`/`Option` results.
-/

set_option maxHeartbeats 1000000

namespace Multiloader

/-- Python strings are modelled as lists of characters. -/
abbrev Str := List Char

/-- Turn a Lean string literal into the character-list model. -/
def str (s : String) : Str := s.data

namespace Py

/-- ASCII whitespace: the characters removed by Python's `str.strip()`
and matched by the regex class `\s` (restricted to ASCII). -/
def isSpace (c : Char) : Bool :=
  c = ' ' || c = '\t' || c = '\n' || c = '\r' || c = '\x0b' || c = '\x0c'

/-- Python `str.strip()` with no argument: drop leading and trailing whitespace. -/
def strip (s : Str) : Str :=
  ((s.dropWhile isSpace).reverse.dropWhile isSpace).reverse

/-- Python `str.split(sep)` for a one-character separator
(also used to split a text into its lines, which is how the scripts'
`(?m)^...$` regexes see a text). -/
def splitOnChar (sep : Char) (s : Str) : List Str :=
  s.foldr (fun c ps => if c = sep then [] :: ps else (c :: ps.headI) :: ps.tail) [[]]

/-- `sep.join(parts)` for a one-character separator; inverse of `splitOnChar`. -/
def joinChar (sep : Char) : List Str → Str
  | [] => []
  | [l] => l
  | l :: ls => l ++ sep :: joinChar sep ls

theorem splitOnChar_nil (sep : Char) : splitOnChar sep [] = [[]] := rfl

theorem splitOnChar_cons (sep c : Char) (rest : Str) :
    splitOnChar sep (c :: rest) =
      if c = sep then [] :: splitOnChar sep rest
      else (c :: (splitOnChar sep rest).headI) :: (splitOnChar sep rest).tail := rfl

theorem splitOnChar_ne_nil (sep : Char) (s : Str) : splitOnChar sep s ≠ [] := by
  cases s with
  | nil => simp [splitOnChar_nil]
  | cons c rest =>
      rw [splitOnChar_cons]
      split <;> simp

theorem splitOnChar_cons_of_ne (sep c : Char) (rest : Str) (hc : c ≠ sep) :
    ∀ l ls, splitOnChar sep rest = l :: ls →
      splitOnChar sep (c :: rest) = (c :: l) :: ls := by
  intro l ls h
  rw [splitOnChar_cons, if_neg hc, h]
  rfl

theorem exists_splitOnChar_cons (sep : Char) (s : Str) :
    ∃ l ls, splitOnChar sep s = l :: ls := by
  cases h : splitOnChar sep s with
  | nil => exact absurd h (splitOnChar_ne_nil sep s)
  | cons l ls => exact ⟨l, ls, rfl⟩

theorem joinChar_splitOnChar (sep : Char) (s : Str) :
    joinChar sep (splitOnChar sep s) = s := by
  induction s with
  | nil => rfl
  | cons c rest ih =>
      obtain ⟨l, ls, hps⟩ := exists_splitOnChar_cons sep rest
      by_cases hc : c = sep
      · rw [splitOnChar_cons, if_pos hc, hps]
        rw [hps] at ih
        have h2 : joinChar sep ([] :: l :: ls) = sep :: joinChar sep (l :: ls) := rfl
        rw [h2, ih, hc]
      · rw [splitOnChar_cons_of_ne sep c rest hc l ls hps]
        rw [hps] at ih
        cases ls with
        | nil =>
            have h2 : joinChar sep [c :: l] = c :: l := rfl
            have h3 : joinChar sep [l] = l := rfl
            rw [h2, h3] at *
            rw [show joinChar sep [l] = l from rfl] at ih
            rw [ih]
        | cons l2 ls2 =>
            have h2 : joinChar sep ((c :: l) :: l2 :: ls2) =
                (c :: l) ++ sep :: joinChar sep (l2 :: ls2) := rfl
            have h3 : joinChar sep (l :: l2 :: ls2) =
                l ++ sep :: joinChar sep (l2 :: ls2) := rfl
            rw [h2]
            rw [h3] at ih
            rw [List.cons_append, ih]

theorem mem_splitOnChar_not_sep (sep : Char) (s : Str) :
    ∀ l ∈ splitOnChar sep s, sep ∉ l := by
  induction s with
  | nil =>
      intro l hl
      rw [splitOnChar_nil, List.mem_singleton] at hl
      simp [hl]
  | cons c rest ih =>
      intro l hl
      obtain ⟨p, ps, hps⟩ := exists_splitOnChar_cons sep rest
      by_cases hc : c = sep
      · rw [splitOnChar_cons, if_pos hc] at hl
        rcases List.mem_cons.mp hl with h | h
        · simp [h]
        · exact ih l h
      · rw [splitOnChar_cons_of_ne sep c rest hc p ps hps] at hl
        rcases List.mem_cons.mp hl with h | h
        · subst h
          intro hmem
          rcases List.mem_cons.mp hmem with h2 | h2
          · exact hc h2.symm
          · exact ih p (hps ▸ List.mem_cons_self p ps) h2
        · exact ih l (hps ▸ List.mem_cons_of_mem p h)

theorem splitOnChar_no_sep (sep : Char) (l : Str) (hl : sep ∉ l) :
    splitOnChar sep l = [l] := by
  induction l with
  | nil => rfl
  | cons c cs ih =>
      have hc : c ≠ sep := fun h => hl (h ▸ List.mem_cons_self c cs)
      have hcs : sep ∉ cs := fun h => hl (List.mem_cons_of_mem c h)
      exact splitOnChar_cons_of_ne sep c cs hc cs [] (ih hcs)

theorem splitOnChar_append_sep (sep : Char) (l : Str) (hl : sep ∉ l) (t : Str) :
    splitOnChar sep (l ++ sep :: t) = l :: splitOnChar sep t := by
  induction l with
  | nil =>
      rw [List.nil_append, splitOnChar_cons, if_pos rfl]
  | cons c cs ih =>
      have hc : c ≠ sep := fun h => hl (h ▸ List.mem_cons_self c cs)
      have hcs : sep ∉ cs := fun h => hl (List.mem_cons_of_mem c h)
      rw [List.cons_append]
      exact splitOnChar_cons_of_ne sep c _ hc cs (splitOnChar sep t) (ih hcs)

theorem splitOnChar_joinChar (sep : Char) (ls : List Str)
    (h : ∀ l ∈ ls, sep ∉ l) (hne : ls ≠ []) :
    splitOnChar sep (joinChar sep ls) = ls := by
  induction ls with
  | nil => exact absurd rfl hne
  | cons l ls ih =>
      cases ls with
      | nil =>
          have h1 : joinChar sep [l] = l := rfl
          rw [h1]
          exact splitOnChar_no_sep sep l (h l (List.mem_cons_self l []))
      | cons l2 ls2 =>
          have h1 : joinChar sep (l :: l2 :: ls2) =
              l ++ sep :: joinChar sep (l2 :: ls2) := rfl
          rw [h1, splitOnChar_append_sep sep l (h l (List.mem_cons_self l _)) _]
          rw [ih (fun x hx => h x (List.mem_cons_of_mem l hx)) (by simp)]

end Py

/-! ### `scripts/add_service.py` -/

namespace AddService

/-- From `add_service.py`: `parse_group` finds the first line matching the
MULTILINE regex `^group=(.+)$` in `gradle.properties` and strips the
captured group; it raises (here: `none`) when no line matches. -/
def parse_group (props : Str) : Option Str :=
  ((Py.splitOnChar '\n' props).find?
      (fun l => (str "group=").isPrefixOf l && decide (6 < l.length))).map
    (fun l => Py.strip (l.drop 6))

/-- The regex class `[A-Za-z_]` (first character of a service name). -/
def isWordStart (c : Char) : Bool := c.isAlpha || c = '_'

/-- The regex class `[A-Za-z0-9_]`. -/
def isWordChar (c : Char) : Bool := c.isAlphanum || c = '_'

/-- `re.match(r"^[A-Za-z_][A-Za-z0-9_]*$", name)` on the already-stripped
service name (the script strips the argument before matching, so the `$`
cannot see a trailing newline). -/
def valid_service_name (name : Str) : Bool :=
  match name with
  | [] => false
  | c :: rest => isWordStart c && rest.all isWordChar

/-- `group.replace(".", "/")` -/
def pkg_path (group : Str) : Str := group.map (fun c => if c = '.' then '/' else c)

/-- `f"{group}.platform.services.{name}"` -/
def service_fqn (group name : Str) : Str :=
  group ++ str ".platform.services." ++ name

/-- Content of the generated service interface file. -/
def interface_content (group name : Str) : Str :=
  str "package " ++ group ++ str ".platform.services;\n\npublic interface " ++
    name ++ str " \x7b\n\x7d\n"

/-- Content of a generated loader implementation file
(`loaderPfx` is `Fabric`, `Forge` or `NeoForge`). -/
def impl_content (group name loaderPfx : Str) : Str :=
  str "package " ++ group ++ str ".platform;\n\nimport " ++
    service_fqn group name ++ str ";\n\npublic class " ++ loaderPfx ++ name ++
    str " implements " ++ name ++ str " \x7b\n\x7d\n"

/-- Content of a generated `META-INF/services` file. -/
def meta_content (group name loaderPfx : Str) : Str :=
  group ++ str ".platform." ++ loaderPfx ++ name ++ str "\n"

/-- The `files` dict of `add_service.py` (insertion order preserved):
the seven `(path, content)` pairs the script creates.  `Path` objects are
modelled as strings joined with `/`. -/
def files (group name : Str) : List (Str × Str) :=
  [ (str "common/src/main/java/" ++ pkg_path group ++ str "/platform/services/" ++
        name ++ str ".java",
     interface_content group name),
    (str "fabric/src/main/java/" ++ pkg_path group ++ str "/platform/Fabric" ++
        name ++ str ".java",
     impl_content group name (str "Fabric")),
    (str "forge/src/main/java/" ++ pkg_path group ++ str "/platform/Forge" ++
        name ++ str ".java",
     impl_content group name (str "Forge")),
    (str "neoforge/src/main/java/" ++ pkg_path group ++ str "/platform/NeoForge" ++
        name ++ str ".java",
     impl_content group name (str "NeoForge")),
    (str "fabric/src/main/resources/META-INF/services/" ++ service_fqn group name,
     meta_content group name (str "Fabric")),
    (str "forge/src/main/resources/META-INF/services/" ++ service_fqn group name,
     meta_content group name (str "Forge")),
    (str "neoforge/src/main/resources/META-INF/services/" ++ service_fqn group name,
     meta_content group name (str "NeoForge")) ]

/-- Possible outcomes of running `add_service.main`. -/
inductive Outcome where
  | invalidName
  | noGroup
  | existingFiles
  | aborted
  | created (files : List (Str × Str))
deriving DecidableEq

/-- `add_service.main`: `fs p = true` models `Path(p).exists()`,
`confirmed` models the user answering `y` at the prompt. -/
def main (fs : Str → Bool) (confirmed : Bool) (props rawName : Str) : Outcome :=
  let name := Py.strip rawName
  if ¬ valid_service_name name then .invalidName
  else
    match parse_group props with
    | none => .noGroup
    | some group =>
        let fls := files group name
        if fls.any (fun p => fs p.1) then .existingFiles
        else if ¬ confirmed then .aborted
        else .created fls

/-- The `(path, content)` pairs an outcome writes to disk. -/
def writesOf : Outcome → List (Str × Str)
  | .created f => f
  | _ => []

end AddService

/-- Claim C4: for every service name matching `^[A-Za-z_][A-Za-z0-9_]*$` and every
group value parsed from `gradle.properties`, the confirmed add-service operation
creates exactly seven files: an interface file under `common` declaring
`public interface <name>`; per loader an implementation class
`Fabric<name>`/`Forge<name>`/`NeoForge<name>` implementing the interface; and per
loader a `META-INF/services` file named `G.platform.services.<name>` whose content
is the fully qualified implementation class name followed by a newline. -/
theorem C4_add_service_seven_files
    (fs : Str → Bool) (props rawName group : Str)
    (hname : AddService.valid_service_name (Py.strip rawName) = true)
    (hgroup : AddService.parse_group props = some group)
    (hnew : ∀ p ∈ AddService.files group (Py.strip rawName), fs p.1 = false) :
    AddService.main fs true props rawName =
      AddService.Outcome.created (AddService.files group (Py.strip rawName)) ∧
    (AddService.files group (Py.strip rawName)).length = 7 ∧
    (∀ path content,
      (AddService.files group (Py.strip rawName)).get? 0 = some (path, content) →
        str "common/src/main/java/" <+: path ∧
        (str "public interface " ++ Py.strip rawName) <:+: content) ∧
    (∀ path content,
      (AddService.files group (Py.strip rawName)).get? 1 = some (path, content) →
        str "fabric/src/main/java/" <+: path ∧
        (str "public class Fabric" ++ Py.strip rawName ++ str " implements " ++
          Py.strip rawName) <:+: content) ∧
    (∀ path content,
      (AddService.files group (Py.strip rawName)).get? 2 = some (path, content) →
        str "forge/src/main/java/" <+: path ∧
        (str "public class Forge" ++ Py.strip rawName ++ str " implements " ++
          Py.strip rawName) <:+: content) ∧
    (∀ path content,
      (AddService.files group (Py.strip rawName)).get? 3 = some (path, content) →
        str "neoforge/src/main/java/" <+: path ∧
        (str "public class NeoForge" ++ Py.strip rawName ++ str " implements " ++
          Py.strip rawName) <:+: content) ∧
    (∀ path content,
      (AddService.files group (Py.strip rawName)).get? 4 = some (path, content) →
        path = str "fabric/src/main/resources/META-INF/services/" ++
          (group ++ str ".platform.services." ++ Py.strip rawName) ∧
        content = group ++ str ".platform.Fabric" ++ Py.strip rawName ++ str "\n") ∧
    (∀ path content,
      (AddService.files group (Py.strip rawName)).get? 5 = some (path, content) →
        path = str "forge/src/main/resources/META-INF/services/" ++
          (group ++ str ".platform.services." ++ Py.strip rawName) ∧
        content = group ++ str ".platform.Forge" ++ Py.strip rawName ++ str "\n") ∧
    (∀ path content,
      (AddService.files group (Py.strip rawName)).get? 6 = some (path, content) →
        path = str "neoforge/src/main/resources/META-INF/services/" ++
          (group ++ str ".platform.services." ++ Py.strip rawName) ∧
        content = group ++ str ".platform.NeoForge" ++ Py.strip rawName ++ str "\n") := by
  have hany : (AddService.files group (Py.strip rawName)).any (fun p => fs p.1) = false := by
    rw [List.any_eq_false]
    intro p hp
    simp [hnew p hp]
  have hmain : AddService.main fs true props rawName =
      AddService.Outcome.created (AddService.files group (Py.strip rawName)) := by
    simp only [AddService.main, hname, hgroup, hany]
    simp
  refine ⟨hmain, rfl, ?_, ?_, ?_, ?_, ?_, ?_, ?_⟩
  · intro path content h
    injection h with h
    injection h with h1 h2
    constructor
    · rw [← h1]
      simp only [List.append_assoc]
      exact ⟨_, rfl⟩
    · rw [← h2]
      refine ⟨str "package " ++ group ++ str ".platform.services;\n\n", str " \x7b\n\x7d\n", ?_⟩
      simp only [AddService.interface_content, str, List.append_assoc]
      rfl
  · intro path content h
    injection h with h
    injection h with h1 h2
    constructor
    · rw [← h1]
      simp only [List.append_assoc]
      exact ⟨_, rfl⟩
    · rw [← h2]
      refine ⟨str "package " ++ group ++ str ".platform;\n\nimport " ++
        AddService.service_fqn group (Py.strip rawName) ++ str ";\n\n", str " \x7b\n\x7d\n", ?_⟩
      simp only [AddService.impl_content, AddService.service_fqn, str, List.append_assoc]
      rfl
  · intro path content h
    injection h with h
    injection h with h1 h2
    constructor
    · rw [← h1]
      simp only [List.append_assoc]
      exact ⟨_, rfl⟩
    · rw [← h2]
      refine ⟨str "package " ++ group ++ str ".platform;\n\nimport " ++
        AddService.service_fqn group (Py.strip rawName) ++ str ";\n\n", str " \x7b\n\x7d\n", ?_⟩
      simp only [AddService.impl_content, AddService.service_fqn, str, List.append_assoc]
      rfl
  · intro path content h
    injection h with h
    injection h with h1 h2
    constructor
    · rw [← h1]
      simp only [List.append_assoc]
      exact ⟨_, rfl⟩
    · rw [← h2]
      refine ⟨str "package " ++ group ++ str ".platform;\n\nimport " ++
        AddService.service_fqn group (Py.strip rawName) ++ str ";\n\n", str " \x7b\n\x7d\n", ?_⟩
      simp only [AddService.impl_content, AddService.service_fqn, str, List.append_assoc]
      rfl
  · intro path content h
    injection h with h
    injection h with h1 h2
    constructor
    · rw [← h1]
      simp only [AddService.service_fqn, str, List.append_assoc]
      try rfl
    · rw [← h2]
      simp only [AddService.meta_content, str, List.append_assoc]
      try rfl
  · intro path content h
    injection h with h
    injection h with h1 h2
    constructor
    · rw [← h1]
      simp only [AddService.service_fqn, str, List.append_assoc]
      try rfl
    · rw [← h2]
      simp only [AddService.meta_content, str, List.append_assoc]
      try rfl
  · intro path content h
    injection h with h
    injection h with h1 h2
    constructor
    · rw [← h1]
      simp only [AddService.service_fqn, str, List.append_assoc]
      try rfl
    · rw [← h2]
      simp only [AddService.meta_content, str, List.append_assoc]
      try rfl

/-- Witness for C4 at a concrete service name and group. -/
theorem C4_add_service_seven_files_witness :
    AddService.valid_service_name (Py.strip (str "IExampleService")) = true ∧
    AddService.parse_group (str "group=com.example\n") = some (str "com.example") ∧
    AddService.main (fun _ => false) true (str "group=com.example\n")
        (str "IExampleService") =
      AddService.Outcome.created
        (AddService.files (str "com.example") (Py.strip (str "IExampleService"))) :=
  ⟨by decide, by decide,
    (C4_add_service_seven_files (fun _ => false) (str "group=com.example\n")
      (str "IExampleService") (str "com.example") (by decide) (by decide)
      (fun p _ => rfl)).1⟩

/-- Claim C5: if any one of the seven target paths of add-service already exists,
the operation writes nothing at all — it never creates a partial subset of the
seven files. -/
theorem C5_add_service_no_partial_writes
    (fs : Str → Bool) (confirmed : Bool) (props rawName group : Str)
    (hgroup : AddService.parse_group props = some group)
    (hexists : ∃ p ∈ AddService.files group (Py.strip rawName), fs p.1 = true) :
    AddService.writesOf (AddService.main fs confirmed props rawName) = [] := by
  by_cases hname : AddService.valid_service_name (Py.strip rawName) = true
  · have hany : (AddService.files group (Py.strip rawName)).any (fun p => fs p.1) = true := by
      rw [List.any_eq_true]
      obtain ⟨p, hp, hfs⟩ := hexists
      exact ⟨p, hp, by simp [hfs]⟩
    simp only [AddService.main, hname, hgroup, hany]
    simp [AddService.writesOf]
  · rw [Bool.not_eq_true] at hname
    simp only [AddService.main, hname]
    simp [AddService.writesOf]

/-- Witness for C5: the very first target path already exists. -/
theorem C5_add_service_no_partial_writes_witness :
    (∃ p ∈ AddService.files (str "com.example") (Py.strip (str "IExampleService")),
        (fun _ => true) p.1 = true) ∧
    AddService.writesOf (AddService.main (fun _ => true) true
        (str "group=com.example\n") (str "IExampleService")) = [] :=
  ⟨⟨(AddService.files (str "com.example") (Py.strip (str "IExampleService"))).head
      (by decide),
    List.head_mem _, rfl⟩,
    C5_add_service_no_partial_writes (fun _ => true) true (str "group=com.example\n")
      (str "IExampleService") (str "com.example") (by decide)
      ⟨(AddService.files (str "com.example") (Py.strip (str "IExampleService"))).head
          (by decide),
        List.head_mem _, rfl⟩⟩

/-! ### `scripts/set_minecraft_version.py`: `apply_versions` -/

namespace SetVersion

/-- After an optional sign, Python `int()` accepts decimal digits with single
underscores between digits (`digitRun` checks everything after the first digit). -/
def digitRun : Str → Bool
  | [] => true
  | '_' :: c :: rest => c.isDigit && digitRun rest
  | c :: rest => c.isDigit && digitRun rest

/-- A digit group accepted by Python `int()`: nonempty, starts with a digit,
no leading/trailing/doubled underscore. -/
def pyDigits : Str → Bool
  | [] => false
  | c :: rest => c.isDigit && digitRun rest

/-- Numeric value of a digit group (underscores ignored). -/
def digitsValue (s : Str) : Nat :=
  (s.filter (fun c => c ≠ '_')).foldl (fun a c => 10 * a + (c.toNat - 48)) 0

/-- Model of Python `int(s)`: optional surrounding whitespace, optional sign,
then a digit group; `none` when `int` would raise `ValueError`. -/
def pyInt (s : Str) : Option Int :=
  match Py.strip s with
  | '+' :: rest => if pyDigits rest then some (digitsValue rest : Int) else none
  | '-' :: rest => if pyDigits rest then some (-(digitsValue rest : Int)) else none
  | rest => if pyDigits rest then some (digitsValue rest : Int) else none

/-- Decimal digits of a natural number (auxiliary, fuel-based). -/
def natToStrAux : Nat → Nat → Str
  | 0, _ => []
  | fuel + 1, n =>
      if n = 0 then []
      else natToStrAux fuel (n / 10) ++ [Char.ofNat (48 + n % 10)]

/-- Model of Python `str` on a natural number. -/
def natToStr (n : Nat) : Str := if n = 0 then ['0'] else natToStrAux (n + 1) n

/-- Model of Python `str` on an `int`. -/
def intToStr (i : Int) : Str :=
  if i < 0 then '-' :: natToStr i.natAbs else natToStr i.natAbs

/-- The `next_minor` computation of `apply_versions`: split the Minecraft
version on `.`; when there are at least two components and the second parses
as an int, answer `major.(minor+1)`, otherwise the version itself. -/
def next_minor (mc : Str) : Str :=
  if 2 ≤ (Py.splitOnChar '.' mc).length then
    match pyInt ((Py.splitOnChar '.' mc).getD 1 []) with
    | some m => (Py.splitOnChar '.' mc).getD 0 [] ++ '.' :: intToStr (m + 1)
    | none => mc
  else mc

/-- The `replacements` dict of `apply_versions`, in insertion order.
`versions` models the fetched-versions dict (`versions.get(key)`). -/
def replacements (mc : Str) (versions : Str → Option Str) : List (Str × Option Str) :=
  [ (str "minecraft_version", some mc),
    (str "minecraft_version_range",
      some (str "[" ++ mc ++ str ", " ++ next_minor mc ++ str ")")),
    (str "neo_form_version", versions (str "neoform_version")),
    (str "parchment_minecraft", some mc),
    (str "parchment_version", versions (str "parchment_version")),
    (str "fabric_loader_version", versions (str "fabric_loader_version")),
    (str "fabric_version", versions (str "fabric_version")),
    (str "mod_menu_version", versions (str "mod_menu_version")),
    (str "forge_version", versions (str "forge_version")),
    (str "neoforge_version", versions (str "neoforge_version")),
    (str "game_versions", some mc) ]

/-- Action of `re.sub(rf"(?m)^{re.escape(key)}=.*$", f"{key}={value}", text)`
on one line: a line starting with `key=` is rewritten to `key=value`.
(The replacement value is taken literally; the scripts substitute version
strings, which contain no regex template escapes.) -/
def replaceLine (key value line : Str) : Str :=
  if (key ++ ['=']).isPrefixOf line then key ++ '=' :: value else line

/-- The whole `re.sub` call: the MULTILINE regex rewrites every line of the
text that starts with `key=`. -/
def substKey (key value text : Str) : Str :=
  Py.joinChar '\n' ((Py.splitOnChar '\n' text).map (replaceLine key value))

/-- The loop `for key, value in replacements.items()` of `apply_versions`;
a `None` or empty value is skipped (`if not value: continue`). -/
def applyReplacements : List (Str × Option Str) → Str → Str
  | [], text => text
  | (k, v) :: rest, text =>
      applyReplacements rest
        (match v with
         | none => text
         | some v => if v = [] then text else substKey k v text)

/-- `apply_versions` as a text transformer: reading and writing
`gradle.properties` is modelled by taking and returning the text. -/
def apply_versions (text mc : Str) (versions : Str → Option Str) : Str :=
  applyReplacements (replacements mc versions) text

/-- The action of the whole replacement loop on a single line of the text. -/
def lineAction : List (Str × Option Str) → Str → Str
  | [], l => l
  | (k, v) :: rest, l =>
      lineAction rest
        (match v with
         | none => l
         | some v => if v = [] then l else replaceLine k v l)

theorem lineAction_cons_none (k : Str) (rest : List (Str × Option Str)) (l : Str) :
    lineAction ((k, none) :: rest) l = lineAction rest l := rfl

theorem lineAction_cons_some (k v : Str) (rest : List (Str × Option Str)) (l : Str) :
    lineAction ((k, some v) :: rest) l =
      lineAction rest (if v = [] then l else replaceLine k v l) := rfl

theorem applyReplacements_cons_none (k : Str) (rest : List (Str × Option Str)) (text : Str) :
    applyReplacements ((k, none) :: rest) text = applyReplacements rest text := rfl

theorem applyReplacements_cons_some (k v : Str) (rest : List (Str × Option Str)) (text : Str) :
    applyReplacements ((k, some v) :: rest) text =
      applyReplacements rest (if v = [] then text else substKey k v text) := rfl

theorem replaceLine_no_nl (key value line : Str) (hk : '\n' ∉ key)
    (hv : '\n' ∉ value) (hl : '\n' ∉ line) : '\n' ∉ replaceLine key value line := by
  unfold replaceLine
  split
  · intro hmem
    rcases List.mem_append.mp hmem with h | h
    · exact hk h
    · rcases List.mem_cons.mp h with h | h
      · exact absurd h.symm (by decide)
      · exact hv h
  · exact hl

theorem lineAction_no_nl (reps : List (Str × Option Str))
    (hk : ∀ p ∈ reps, '\n' ∉ p.1) (hv : ∀ p ∈ reps, '\n' ∉ p.2.getD []) :
    ∀ l, '\n' ∉ l → '\n' ∉ lineAction reps l := by
  induction reps with
  | nil => exact fun l hl => hl
  | cons p rest ih =>
      obtain ⟨k, v⟩ := p
      have hk1 : '\n' ∉ k := hk (k, v) (List.mem_cons_self _ _)
      have hkr : ∀ p ∈ rest, '\n' ∉ p.1 := fun p hp => hk p (List.mem_cons_of_mem _ hp)
      have hvr : ∀ p ∈ rest, '\n' ∉ p.2.getD [] :=
        fun p hp => hv p (List.mem_cons_of_mem _ hp)
      intro l hl
      cases v with
      | none =>
          rw [lineAction_cons_none]
          exact ih hkr hvr l hl
      | some v =>
          have hv1 : '\n' ∉ v := hv (k, some v) (List.mem_cons_self _ _)
          rw [lineAction_cons_some]
          by_cases hve : v = []
          · rw [if_pos hve]
            exact ih hkr hvr l hl
          · rw [if_neg hve]
            exact ih hkr hvr _ (replaceLine_no_nl k v l hk1 hv1 hl)

/-- The sequential whole-text passes of the loop fuse into one per-line pass. -/
theorem applyReplacements_eq_lineAction (reps : List (Str × Option Str)) (text : Str)
    (hk : ∀ p ∈ reps, '\n' ∉ p.1) (hv : ∀ p ∈ reps, '\n' ∉ p.2.getD []) :
    applyReplacements reps text =
      Py.joinChar '\n' ((Py.splitOnChar '\n' text).map (lineAction reps)) := by
  induction reps generalizing text with
  | nil =>
      have hmap : (Py.splitOnChar '\n' text).map (lineAction []) =
          Py.splitOnChar '\n' text := by
        have h1 : (Py.splitOnChar '\n' text).map (lineAction []) =
            (Py.splitOnChar '\n' text).map id := List.map_congr_left (fun l _ => rfl)
        rw [h1, List.map_id]
      rw [hmap]
      exact (Py.joinChar_splitOnChar '\n' text).symm
  | cons p rest ih =>
      obtain ⟨k, v⟩ := p
      have hk1 : '\n' ∉ k := hk (k, v) (List.mem_cons_self _ _)
      have hkr : ∀ p ∈ rest, '\n' ∉ p.1 := fun p hp => hk p (List.mem_cons_of_mem _ hp)
      have hvr : ∀ p ∈ rest, '\n' ∉ p.2.getD [] :=
        fun p hp => hv p (List.mem_cons_of_mem _ hp)
      cases v with
      | none =>
          rw [applyReplacements_cons_none, ih text hkr hvr]
          congr 1
      | some v =>
          by_cases hve : v = []
          · rw [applyReplacements_cons_some, if_pos hve, ih text hkr hvr]
            congr 1
            refine List.map_congr_left (fun l _ => ?_)
            rw [lineAction_cons_some, if_pos hve]
          · have hv1 : '\n' ∉ v := hv (k, some v) (List.mem_cons_self _ _)
            rw [applyReplacements_cons_some, if_neg hve, ih _ hkr hvr]
            unfold substKey
            have hlines : Py.splitOnChar '\n'
                (Py.joinChar '\n' ((Py.splitOnChar '\n' text).map (replaceLine k v))) =
                (Py.splitOnChar '\n' text).map (replaceLine k v) := by
              apply Py.splitOnChar_joinChar
              · intro l hl
                obtain ⟨l0, hl0, hrepl⟩ := List.mem_map.mp hl
                rw [← hrepl]
                exact replaceLine_no_nl k v l0 hk1 hv1
                  (Py.mem_splitOnChar_not_sep '\n' text l0 hl0)
              · simp [Py.splitOnChar_ne_nil]
            rw [hlines, List.map_map]
            congr 1
            refine List.map_congr_left (fun l _ => ?_)
            rw [Function.comp_apply, lineAction_cons_some, if_neg hve]

/-- Two distinct `=`-free keys cannot both match one line:
`k2=` is never a prefix of `k=w`. -/
theorem noCross (k k2 : Str) (hne : k ≠ k2) (hk : '=' ∉ k) (hk2 : '=' ∉ k2)
    (w : Str) : ¬ (k2 ++ ['=']) <+: (k ++ '=' :: w) := by
  intro h
  have hw : k ++ '=' :: w = (k ++ ['=']) ++ w := by simp
  rw [hw] at h
  have hpk : (k ++ ['=']) <+: (k ++ ['=']) ++ w := ⟨w, rfl⟩
  rcases le_or_lt (k2.length + 1) (k.length + 1) with hle | hlt
  · have h1 : (k2 ++ ['=']) <+: (k ++ ['=']) :=
      List.prefix_of_prefix_length_le h hpk (by simpa using hle)
    rcases lt_or_eq_of_le hle with hlt2 | heq
    · have h2 : (k2 ++ ['=']) <+: k := by
        apply List.prefix_of_prefix_length_le h1 ⟨['='], rfl⟩
        simpa using Nat.lt_succ_iff.mp hlt2
      exact hk (h2.subset (by simp))
    · have h2 : k2 ++ ['='] = k ++ ['='] :=
        List.IsPrefix.eq_of_length h1 (by simpa using heq)
      have h3 : k2 = k := by
        have h4 := List.append_inj_left h2 (by simpa using heq)
        exact h4
      exact hne h3.symm
  · have h1 : (k ++ ['=']) <+: (k2 ++ ['=']) :=
      List.prefix_of_prefix_length_le hpk h (by simpa using Nat.le_of_lt hlt)
    have h2 : (k ++ ['=']) <+: k2 := by
      apply List.prefix_of_prefix_length_le h1 ⟨['='], rfl⟩
      simpa using Nat.lt_succ_iff.mp hlt
    exact hk2 (h2.subset (by simp))

/-- Frame rule for a single line: a line matched by no effective key is untouched. -/
theorem lineAction_frame (reps : List (Str × Option Str)) (l : Str)
    (h : ∀ k v, (k, some v) ∈ reps → v ≠ [] → ¬ (k ++ ['=']) <+: l) :
    lineAction reps l = l := by
  induction reps with
  | nil => rfl
  | cons p rest ih =>
      obtain ⟨k, v⟩ := p
      cases v with
      | none =>
          rw [lineAction_cons_none]
          exact ih (fun k2 v2 hm hv2 => h k2 v2 (List.mem_cons_of_mem _ hm) hv2)
      | some v =>
          rw [lineAction_cons_some]
          by_cases hve : v = []
          · rw [if_pos hve]
            exact ih (fun k2 v2 hm hv2 => h k2 v2 (List.mem_cons_of_mem _ hm) hv2)
          · rw [if_neg hve]
            have hnp : ¬ (k ++ ['=']) <+: l := h k v (List.mem_cons_self _ _) hve
            have hrl : replaceLine k v l = l := by
              unfold replaceLine
              rw [if_neg (fun hb => hnp (List.isPrefixOf_iff_prefix.mp hb))]
            rw [hrl]
            exact ih (fun k2 v2 hm hv2 => h k2 v2 (List.mem_cons_of_mem _ hm) hv2)

/-- A line that starts with `k=`, where `k` is an effective key of the
replacement list, ends up as exactly `k=v`. -/
theorem lineAction_sets (reps : List (Str × Option Str)) (k : Str) (v : Str)
    (hfree : ∀ p ∈ reps, '=' ∉ p.1) (hnodup : (reps.map Prod.fst).Nodup)
    (hmem : (k, some v) ∈ reps) (hve : v ≠ []) :
    ∀ l, (k ++ ['=']) <+: l → lineAction reps l = k ++ '=' :: v := by
  induction reps with
  | nil => exact absurd hmem (List.not_mem_nil _)
  | cons p rest ih =>
      obtain ⟨k2, v2⟩ := p
      have hfree1 : '=' ∉ k2 := hfree (k2, v2) (List.mem_cons_self _ _)
      have hfreer : ∀ p ∈ rest, '=' ∉ p.1 := fun p hp => hfree p (List.mem_cons_of_mem _ hp)
      have hnodupr : (rest.map Prod.fst).Nodup := (List.nodup_cons.mp hnodup).2
      have hknotin : k2 ∉ rest.map Prod.fst := (List.nodup_cons.mp hnodup).1
      intro l hl
      rcases List.mem_cons.mp hmem with hhead | htail
      · have hkeq : k = k2 := congrArg Prod.fst hhead
        have hveq : some v = v2 := congrArg Prod.snd hhead
        subst hkeq
        subst hveq
        rw [lineAction_cons_some, if_neg hve]
        have hrl : replaceLine k v l = k ++ '=' :: v := by
          unfold replaceLine
          rw [if_pos (List.isPrefixOf_iff_prefix.mpr hl)]
        rw [hrl]
        apply lineAction_frame
        intro k3 v3 hm3 hv3 hpre
        have hk3mem : k3 ∈ rest.map Prod.fst := List.mem_map.mpr ⟨(k3, some v3), hm3, rfl⟩
        have hk3free : '=' ∉ k3 := hfreer (k3, some v3) hm3
        have hne : k ≠ k3 := fun he => hknotin (he ▸ hk3mem)
        exact noCross k k3 hne hfree1 hk3free v hpre
      · have hkmem : k ∈ rest.map Prod.fst := List.mem_map.mpr ⟨(k, some v), htail, rfl⟩
        have hne : k2 ≠ k := fun he => hknotin (he ▸ hkmem)
        have hkfree : '=' ∉ k := hfreer (k, some v) htail
        obtain ⟨w, hw⟩ := hl
        cases v2 with
        | none =>
            rw [lineAction_cons_none]
            exact ih hfreer hnodupr htail l ⟨w, hw⟩
        | some v2 =>
            rw [lineAction_cons_some]
            by_cases hve2 : v2 = []
            · rw [if_pos hve2]
              exact ih hfreer hnodupr htail l ⟨w, hw⟩
            · rw [if_neg hve2]
              have hnp : ¬ (k2 ++ ['=']) <+: l := by
                rw [← hw]
                have hcons : k ++ ['='] ++ w = k ++ '=' :: w := by simp
                rw [hcons]
                exact noCross k k2 (fun he => hne he.symm) hkfree hfree1 w
              have hrl : replaceLine k2 v2 l = l := by
                unfold replaceLine
                rw [if_neg (fun hb => hnp (List.isPrefixOf_iff_prefix.mp hb))]
              rw [hrl]
              exact ih hfreer hnodupr htail l ⟨w, hw⟩

/-- The replacement loop neither creates nor destroys lines matching `k=`
for an `=`-free key `k`. -/
theorem lineAction_match_iff (reps : List (Str × Option Str)) (k : Str)
    (hk : '=' ∉ k) (hfree : ∀ p ∈ reps, '=' ∉ p.1) :
    ∀ l, ((k ++ ['=']) <+: lineAction reps l) ↔ ((k ++ ['=']) <+: l) := by
  induction reps with
  | nil => exact fun l => Iff.rfl
  | cons p rest ih =>
      obtain ⟨k2, v2⟩ := p
      have hfree1 : '=' ∉ k2 := hfree (k2, v2) (List.mem_cons_self _ _)
      have hfreer : ∀ p ∈ rest, '=' ∉ p.1 := fun p hp => hfree p (List.mem_cons_of_mem _ hp)
      intro l
      cases v2 with
      | none =>
          rw [lineAction_cons_none]
          exact ih hfreer l
      | some v2 =>
          rw [lineAction_cons_some]
          by_cases hve2 : v2 = []
          · rw [if_pos hve2]
            exact ih hfreer l
          · rw [if_neg hve2]
            by_cases hfire : (k2 ++ ['=']) <+: l
            · have hrl : replaceLine k2 v2 l = k2 ++ '=' :: v2 := by
                unfold replaceLine
                rw [if_pos (List.isPrefixOf_iff_prefix.mpr hfire)]
              rw [hrl]
              by_cases hkk : k2 = k
              · subst hkk
                rw [ih hfreer _]
                constructor
                · intro _
                  exact hfire
                · intro _
                  exact ⟨v2, by simp⟩
              · obtain ⟨w, hw⟩ := hfire
                have hlk : ¬ (k ++ ['=']) <+: l := by
                  rw [← hw]
                  have hcons : k2 ++ ['='] ++ w = k2 ++ '=' :: w := by simp
                  rw [hcons]
                  exact noCross k2 k hkk hfree1 hk w
                have hlk2 : ¬ (k ++ ['=']) <+: (k2 ++ '=' :: v2) :=
                  noCross k2 k hkk hfree1 hk v2
                rw [ih hfreer _]
                exact ⟨fun h => absurd h hlk2, fun h => absurd h hlk⟩
            · have hrl : replaceLine k2 v2 l = l := by
                unfold replaceLine
                rw [if_neg (fun hb => hfire (List.isPrefixOf_iff_prefix.mp hb))]
              rw [hrl]
              exact ih hfreer l

/-- The eleven replacement keys of `apply_versions`. -/
theorem replacements_keys (mc : Str) (versions : Str → Option Str) :
    (replacements mc versions).map Prod.fst =
      [str "minecraft_version", str "minecraft_version_range", str "neo_form_version",
       str "parchment_minecraft", str "parchment_version", str "fabric_loader_version",
       str "fabric_version", str "mod_menu_version", str "forge_version",
       str "neoforge_version", str "game_versions"] := rfl

theorem replacements_keys_eqfree (mc : Str) (versions : Str → Option Str) :
    ∀ p ∈ replacements mc versions, '=' ∉ p.1 := by
  intro p hp
  have h : p.1 ∈ (replacements mc versions).map Prod.fst := List.mem_map.mpr ⟨p, hp, rfl⟩
  rw [replacements_keys] at h
  simp only [List.mem_cons, List.not_mem_nil, or_false] at h
  rcases h with h|h|h|h|h|h|h|h|h|h|h
  all_goals rw [h]
  all_goals decide

theorem replacements_keys_nodup (mc : Str) (versions : Str → Option Str) :
    ((replacements mc versions).map Prod.fst).Nodup := by
  rw [replacements_keys]
  decide

theorem replacements_keys_no_nl (mc : Str) (versions : Str → Option Str) :
    ∀ p ∈ replacements mc versions, '\n' ∉ p.1 := by
  intro p hp
  have h : p.1 ∈ (replacements mc versions).map Prod.fst := List.mem_map.mpr ⟨p, hp, rfl⟩
  rw [replacements_keys] at h
  simp only [List.mem_cons, List.not_mem_nil, or_false] at h
  rcases h with h|h|h|h|h|h|h|h|h|h|h
  all_goals rw [h]
  all_goals decide

/-- In a list with `Nodup` keys, a key determines its value. -/
theorem nodup_keys_unique (reps : List (Str × Option Str))
    (h : (reps.map Prod.fst).Nodup) :
    ∀ k a b, (k, a) ∈ reps → (k, b) ∈ reps → a = b := by
  induction reps with
  | nil =>
      intro k a b ha _
      exact absurd ha (List.not_mem_nil _)
  | cons p rest ih =>
      intro k a b ha hb
      obtain ⟨k0, v0⟩ := p
      have hnotin : k0 ∉ rest.map Prod.fst := (List.nodup_cons.mp h).1
      have hrest := (List.nodup_cons.mp h).2
      rcases List.mem_cons.mp ha with ha1 | ha1 <;> rcases List.mem_cons.mp hb with hb1 | hb1
      · have e1 : a = v0 := congrArg Prod.snd ha1
        have e2 : b = v0 := congrArg Prod.snd hb1
        rw [e1, e2]
      · have e1 : k = k0 := congrArg Prod.fst ha1
        have hmem : k ∈ rest.map Prod.fst := List.mem_map.mpr ⟨(k, b), hb1, rfl⟩
        rw [e1] at hmem
        exact absurd hmem hnotin
      · have e1 : k = k0 := congrArg Prod.fst hb1
        have hmem : k ∈ rest.map Prod.fst := List.mem_map.mpr ⟨(k, a), ha1, rfl⟩
        rw [e1] at hmem
        exact absurd hmem hnotin
      · exact ih hrest k a b ha1 hb1

/-- The `i`-th line of the output of `apply_versions` is the per-line action
applied to the `i`-th line of the input. -/
theorem apply_versions_lines (text mc : Str) (versions : Str → Option Str)
    (hNL : ∀ p ∈ replacements mc versions, '\n' ∉ p.2.getD []) :
    Py.splitOnChar '\n' (apply_versions text mc versions) =
      (Py.splitOnChar '\n' text).map (lineAction (replacements mc versions)) := by
  have hkeysnl := replacements_keys_no_nl mc versions
  unfold apply_versions
  rw [applyReplacements_eq_lineAction _ _ hkeysnl hNL]
  apply Py.splitOnChar_joinChar
  · intro l hl
    obtain ⟨l0, hl0, heq⟩ := List.mem_map.mp hl
    rw [← heq]
    exact lineAction_no_nl _ hkeysnl hNL l0 (Py.mem_splitOnChar_not_sep '\n' text l0 hl0)
  · simp [Py.splitOnChar_ne_nil]

end SetVersion

/-- Claim C6: if the properties text contains a line `k=...` for a replacement
key `k` whose value `v` is truthy, that line becomes exactly `k=v`; in
particular the `minecraft_version` line is set to `mc` and the
`minecraft_version_range` line to `[mc, N)`, where `N` joins the major
component with the minor component incremented by one, and `N` is `mc` itself
when the minor component is absent or not parseable as an int.
(Version values are line-free strings: no value may contain a newline.) -/
theorem C6_apply_versions_sets_lines (text mc : Str) (versions : Str → Option Str)
    (hNL : ∀ p ∈ SetVersion.replacements mc versions, '\n' ∉ p.2.getD []) :
    (∀ k v, (k, some v) ∈ SetVersion.replacements mc versions → v ≠ [] →
      ∀ (i : Nat) l, (Py.splitOnChar '\n' text)[i]? = some l → (k ++ ['=']) <+: l →
        (Py.splitOnChar '\n' (SetVersion.apply_versions text mc versions))[i]? =
          some (k ++ '=' :: v)) ∧
    (mc ≠ [] → ∀ (i : Nat) l, (Py.splitOnChar '\n' text)[i]? = some l →
      (str "minecraft_version=") <+: l →
        (Py.splitOnChar '\n' (SetVersion.apply_versions text mc versions))[i]? =
          some (str "minecraft_version=" ++ mc)) ∧
    (∀ (i : Nat) l, (Py.splitOnChar '\n' text)[i]? = some l →
      (str "minecraft_version_range=") <+: l →
        (Py.splitOnChar '\n' (SetVersion.apply_versions text mc versions))[i]? =
          some (str "minecraft_version_range=[" ++ mc ++ str ", " ++
            SetVersion.next_minor mc ++ str ")")) ∧
    ((∃ maj minr rest, Py.splitOnChar '.' mc = maj :: minr :: rest ∧
        ∃ m, SetVersion.pyInt minr = some m ∧
          SetVersion.next_minor mc = maj ++ '.' :: SetVersion.intToStr (m + 1)) ∨
      (((Py.splitOnChar '.' mc).length < 2 ∨
          SetVersion.pyInt ((Py.splitOnChar '.' mc).getD 1 []) = none) ∧
        SetVersion.next_minor mc = mc)) := by
  have hfree := SetVersion.replacements_keys_eqfree mc versions
  have hnodup := SetVersion.replacements_keys_nodup mc versions
  have hlines := SetVersion.apply_versions_lines text mc versions hNL
  have hmain : ∀ k v, (k, some v) ∈ SetVersion.replacements mc versions → v ≠ [] →
      ∀ (i : Nat) l, (Py.splitOnChar '\n' text)[i]? = some l → (k ++ ['=']) <+: l →
        (Py.splitOnChar '\n' (SetVersion.apply_versions text mc versions))[i]? =
          some (k ++ '=' :: v) := by
    intro k v hmem hve i l hl hpre
    rw [hlines, List.getElem?_map, hl, Option.map_some']
    rw [SetVersion.lineAction_sets _ k v hfree hnodup hmem hve l hpre]
  refine ⟨hmain, ?_, ?_, ?_⟩
  · intro hmc i l hl hpre
    exact hmain (str "minecraft_version") mc (List.mem_cons_self _ _) hmc i l hl hpre
  · intro i l hl hpre
    refine hmain (str "minecraft_version_range")
      (str "[" ++ mc ++ str ", " ++ SetVersion.next_minor mc ++ str ")")
      (List.mem_cons_of_mem _ (List.mem_cons_self _ _)) ?_ i l hl hpre
    exact fun h => List.noConfusion h
  · by_cases hlen : 2 ≤ (Py.splitOnChar '.' mc).length
    · cases hpi : SetVersion.pyInt ((Py.splitOnChar '.' mc).getD 1 []) with
      | none =>
          right
          refine ⟨Or.inr rfl, ?_⟩
          unfold SetVersion.next_minor
          rw [if_pos hlen, hpi]
      | some m =>
          left
          obtain ⟨a, as, ha⟩ := Py.exists_splitOnChar_cons '.' mc
          cases as with
          | nil =>
              rw [ha] at hlen
              exact absurd hlen (by simp)
          | cons b bs =>
              refine ⟨a, b, bs, ha, m, ?_, ?_⟩
              · rw [ha] at hpi
                exact hpi
              · unfold SetVersion.next_minor
                rw [if_pos hlen, hpi, ha]
                rfl
    · right
      refine ⟨Or.inl (by omega), ?_⟩
      unfold SetVersion.next_minor
      rw [if_neg hlen]

/-- Witness for C6 at a concrete text, Minecraft version and (empty) fetch
results: the `minecraft_version` line is rewritten to the new version. -/
theorem C6_apply_versions_sets_lines_witness :
    (∀ p ∈ SetVersion.replacements (str "1.21.5") (fun _ => none), '\n' ∉ p.2.getD []) ∧
    str "1.21.5" ≠ [] ∧
    (Py.splitOnChar '\n' (SetVersion.apply_versions
        (str "minecraft_version=1.20.1") (str "1.21.5") (fun _ => none)))[0]? =
      some (str "minecraft_version=" ++ str "1.21.5") :=
  ⟨by decide, by decide,
    (C6_apply_versions_sets_lines (str "minecraft_version=1.20.1") (str "1.21.5")
        (fun _ => none) (by decide)).2.1 (by decide) 0 (str "minecraft_version=1.20.1")
      (by decide) (by decide)⟩

/-- Claim C7: `apply_versions` only rewrites lines `k=...` for its eleven keys
with a truthy value: the line count is unchanged, a line matched by no
effective key is unchanged character for character, a line for a key whose
value is `None` or empty keeps its previous content, and no new line matching
a key appears at any position where none matched before.
(Version values are line-free strings: no value may contain a newline.) -/
theorem C7_apply_versions_frame (text mc : Str) (versions : Str → Option Str)
    (hNL : ∀ p ∈ SetVersion.replacements mc versions, '\n' ∉ p.2.getD []) :
    (Py.splitOnChar '\n' (SetVersion.apply_versions text mc versions)).length =
      (Py.splitOnChar '\n' text).length ∧
    (∀ (i : Nat) l, (Py.splitOnChar '\n' text)[i]? = some l →
      (∀ k v, (k, some v) ∈ SetVersion.replacements mc versions → v ≠ [] →
        ¬ (k ++ ['=']) <+: l) →
      (Py.splitOnChar '\n' (SetVersion.apply_versions text mc versions))[i]? = some l) ∧
    (∀ k vo, (k, vo) ∈ SetVersion.replacements mc versions →
      (vo = none ∨ vo = some []) →
      ∀ (i : Nat) l, (Py.splitOnChar '\n' text)[i]? = some l → (k ++ ['=']) <+: l →
        (Py.splitOnChar '\n' (SetVersion.apply_versions text mc versions))[i]? = some l) ∧
    (∀ k, k ∈ (SetVersion.replacements mc versions).map Prod.fst → ∀ (i : Nat),
      ((∃ l, (Py.splitOnChar '\n' (SetVersion.apply_versions text mc versions))[i]? =
          some l ∧ (k ++ ['=']) <+: l) ↔
       (∃ l, (Py.splitOnChar '\n' text)[i]? = some l ∧ (k ++ ['=']) <+: l))) := by
  have hfree := SetVersion.replacements_keys_eqfree mc versions
  have hnodup := SetVersion.replacements_keys_nodup mc versions
  have hlines := SetVersion.apply_versions_lines text mc versions hNL
  refine ⟨?_, ?_, ?_, ?_⟩
  · rw [hlines, List.length_map]
  · intro i l hl hnone
    rw [hlines, List.getElem?_map, hl, Option.map_some']
    rw [SetVersion.lineAction_frame _ l hnone]
  · intro k vo hmem hvo i l hl hpre
    rw [hlines, List.getElem?_map, hl, Option.map_some']
    rw [SetVersion.lineAction_frame]
    intro k2 v2 hm2 hv2 hpre2
    by_cases hkk : k2 = k
    · subst hkk
      have heq := SetVersion.nodup_keys_unique _ hnodup k2 vo (some v2) hmem hm2
      rcases hvo with h | h
      · rw [h] at heq
        exact Option.noConfusion heq
      · rw [h] at heq
        have : v2 = [] := (Option.some.injEq _ _).mp heq.symm
        exact hv2 this
    · obtain ⟨w, hw⟩ := hpre
      rw [← hw, ← List.append_cons] at hpre2
      have hkfree : '=' ∉ k := hfree (k, vo) hmem
      have hk2free : '=' ∉ k2 := hfree (k2, some v2) hm2
      exact SetVersion.noCross k k2 (fun he => hkk he.symm) hkfree hk2free w hpre2
  · intro k hk i
    have hkfree : '=' ∉ k := by
      obtain ⟨p, hp, hpe⟩ := List.mem_map.mp hk
      rw [← hpe]
      exact hfree p hp
    rw [hlines, List.getElem?_map]
    cases hl : (Py.splitOnChar '\n' text)[i]? with
    | none =>
        simp only [Option.map_none']
    | some l =>
        simp only [Option.map_some']
        constructor
        · rintro ⟨l2, hl2, hpre⟩
          have hll : l2 = SetVersion.lineAction (SetVersion.replacements mc versions) l :=
            (Option.some.injEq _ _).mp hl2.symm
          rw [hll] at hpre
          exact ⟨l, rfl, (SetVersion.lineAction_match_iff _ k hkfree hfree l).mp hpre⟩
        · rintro ⟨l2, hl2, hpre⟩
          have hll : l2 = l := (Option.some.injEq _ _).mp hl2.symm
          rw [hll] at hpre
          exact ⟨SetVersion.lineAction (SetVersion.replacements mc versions) l, rfl,
            (SetVersion.lineAction_match_iff _ k hkfree hfree l).mpr hpre⟩

/-! ### `scripts/set_minecraft_version.py`: the version fetchers.
The HTTP fetch of each fetcher is passed in as an `Except Unit Str`
(`Except.error` models `urllib.request.urlopen` raising); the processing of
the fetched body is translated from the source. -/

namespace SetVersion

/-- `re.findall(r"<version>([^<]+)</version>", xml_text)`: scan left to right;
at a match, capture the maximal nonempty run of non-`<` characters between the
tags and resume after the whole match, otherwise advance one character. -/
def findallVersionsAux : Nat → Str → List Str
  | 0, _ => []
  | _ + 1, [] => []
  | fuel + 1, c :: rest =>
      if (str "<version>").isPrefixOf (c :: rest) then
        let after := (c :: rest).drop 9
        let run := after.takeWhile (fun d => d ≠ '<')
        let rest2 := after.dropWhile (fun d => d ≠ '<')
        if !run.isEmpty && (str "</version>").isPrefixOf rest2 then
          run :: findallVersionsAux fuel (rest2.drop 10)
        else findallVersionsAux fuel rest
      else findallVersionsAux fuel rest

def findallVersions (xml : Str) : List Str := findallVersionsAux xml.length xml

/-- Python's substring test `sub in s`. -/
def hasSub (sub s : Str) : Bool := decide (sub <:+: s)

/-- Python `list.sort()` on strings: ascending lexicographic code-point order
(insertion sort is extensionally the same as Python's stable sort here, since
the order is total and equal strings are indistinguishable). -/
def pySort (l : List Str) : List Str := List.insertionSort (· ≤ ·) l

/-- The `<version>` entries of `get_artifact_latest` that start with `mc-`. -/
def artifact_candidates (xml mc : Str) : List Str :=
  (findallVersions xml).filter (fun v => (mc ++ ['-']).isPrefixOf v)

/-- The candidates that are final releases (no `-rc`, no `-pre`). -/
def artifact_stable (xml mc : Str) : List Str :=
  (artifact_candidates xml mc).filter
    (fun v => !(hasSub (str "-rc") v) && !(hasSub (str "-pre") v))

/-- `get_artifact_latest` (set_minecraft_version.py lines 19-36). -/
def get_artifact_latest (fetched : Except Unit Str) (mc_version : Str) : Option Str :=
  match fetched with
  | .error _ => none
  | .ok xml_text =>
      if (artifact_candidates xml_text mc_version).isEmpty then none
      else
        some ((pySort (if (artifact_stable xml_text mc_version).isEmpty then
            artifact_candidates xml_text mc_version
          else artifact_stable xml_text mc_version)).getLastD [])

/-- `get_neoform_version`: `get_artifact_latest` at the neoform metadata URL. -/
def get_neoform_version (fetched : Except Unit Str) (mc : Str) : Option Str :=
  get_artifact_latest fetched mc

/-- Attribute-free XML element trees, the fragment of
`xml.etree.ElementTree` that maven-metadata documents use:
a tag, the text before the first child (`None` when empty, as in ElementTree),
and the child elements. -/
inductive XTree where
  | elem (tag : Str) (text : Option Str) (children : List XTree)

def XTree.tag : XTree → Str
  | .elem t _ _ => t

def XTree.text : XTree → Option Str
  | .elem _ t _ => t

def XTree.children : XTree → List XTree
  | .elem _ _ c => c

/-- Characters allowed in a tag name by this minimal parser. -/
def nameChar (c : Char) : Bool := !(c = '<' || c = '>' || c = '/' || Py.isSpace c)

mutual

/-- Parse one element `<tag>content</tag>` (fuel-based; `Except.error` models
`ET.ParseError`). -/
def parseElem : Nat → Str → Except Unit (XTree × Str)
  | 0, _ => .error ()
  | fuel + 1, cs =>
      match cs with
      | '<' :: rest =>
          let tag := rest.takeWhile nameChar
          let rest2 := rest.dropWhile nameChar
          if tag.isEmpty then .error ()
          else
            match rest2 with
            | '>' :: body => parseContent fuel tag body
            | _ => .error ()
      | _ => .error ()

/-- Parse the content of an open element: leading text, then children. -/
def parseContent : Nat → Str → Str → Except Unit (XTree × Str)
  | 0, _, _ => .error ()
  | fuel + 1, tag, body =>
      parseChildren fuel tag
        (if (body.takeWhile (fun c => c ≠ '<')).isEmpty then none
         else some (body.takeWhile (fun c => c ≠ '<')))
        [] (body.dropWhile (fun c => c ≠ '<'))

/-- Parse child elements until the matching closing tag. -/
def parseChildren : Nat → Str → Option Str → List XTree → Str → Except Unit (XTree × Str)
  | 0, _, _, _, _ => .error ()
  | fuel + 1, tag, text, acc, cs =>
      if (str "</").isPrefixOf cs then
        if (cs.drop 2).takeWhile nameChar = tag then
          match (cs.drop 2).dropWhile nameChar with
          | '>' :: rest3 => .ok (XTree.elem tag text acc.reverse, rest3)
          | _ => .error ()
        else .error ()
      else
        match parseElem fuel cs with
        | .error e => .error e
        | .ok (child, rest) =>
            parseChildren fuel tag text (child :: acc)
              (rest.dropWhile (fun c => c ≠ '<'))

end

/-- `xml.etree.ElementTree.fromstring` for this fragment: optional surrounding
whitespace around a single root element; anything else is a parse error.
(XML declarations, attributes and comments are outside the fragment the
scripts' inputs use; a non-XML body is an error here as there.) -/
def fromstring (s : Str) : Except Unit XTree :=
  match parseElem s.length (s.dropWhile Py.isSpace) with
  | .error e => .error e
  | .ok (root, rest) =>
      if (rest.dropWhile Py.isSpace).isEmpty then .ok root else .error ()

/-- `root.findall("./a/b/c")`: walk matching children level by level. -/
def findallPath (root : XTree) (segs : List Str) : List XTree :=
  segs.foldl
    (fun level seg => level.flatMap (fun e => e.children.filter (fun c => c.tag = seg)))
    [root]

/-- `root.findtext("a/b")`: text of the first match (empty string when the
element has no text), `None` when there is no match. -/
def findtext (root : XTree) (segs : List Str) : Option Str :=
  match findallPath root segs with
  | [] => none
  | e :: _ => some (e.text.getD [])

/-- The comprehension
`[v.text for v in root.findall(...) if v.text.startswith(mc_prefix)]`:
an element whose `text` is `None` raises `AttributeError` at the
`startswith` call (`Except.error`). -/
def collectVersionTexts : List XTree → Str → Except Unit (List Str)
  | [], _ => .ok []
  | e :: rest, pfx =>
      match e.text with
      | none => .error ()
      | some t =>
          match collectVersionTexts rest pfx with
          | .error er => .error er
          | .ok ts => .ok (if pfx.isPrefixOf t then t :: ts else ts)

/-- `get_neoforge_version` (lines 46-68): only the HTTP fetch is inside
try/except; `ET.fromstring` and the comprehension run unguarded, so a
malformed body (or a version element without text) raises. -/
def get_neoforge_version (fetched : Except Unit Str) (mc : Str) : Except Unit (Option Str) :=
  match fetched with
  | .error _ => .ok none
  | .ok xml_text =>
      match fromstring xml_text with
      | .error e => .error e
      | .ok root =>
          match collectVersionTexts
              (findallPath root [str "versioning", str "versions", str "version"])
              (Py.joinChar '.' (((Py.splitOnChar '.' mc).drop 1).take 2)) with
          | .error e => .error e
          | .ok versions =>
              if versions.isEmpty then .ok none
              else
                .ok (some ((if (versions.filter (fun v =>
                      !(hasSub (str "-beta") v) && !(hasSub (str "-rc") v))).isEmpty then
                    versions
                  else versions.filter (fun v =>
                      !(hasSub (str "-beta") v) && !(hasSub (str "-rc") v))).getLastD []))

/-- `get_parchment_version` (lines 71-78): fetch, parse and `findtext` all run
inside try/except, so any failure yields `None` and nothing raises. -/
def get_parchment_version (fetched : Except Unit Str) : Option Str :=
  match fetched with
  | .error _ => none
  | .ok xml_text =>
      match fromstring xml_text with
      | .error _ => none
      | .ok root => findtext root [str "versioning", str "latest"]

/-- try/except around a whole fetcher body: the body's outcome or `None`. -/
def tryBody (body : Except Unit (Option Str)) : Option Str :=
  match body with
  | .error _ => none
  | .ok v => v

/-- `get_fabric_loader_version` (lines 81-92): fetch, JSON parsing, key
lookups and the version sort all run inside try/except; the JSON processing
is abstracted as the guarded body's outcome. -/
def get_fabric_loader_version (body : Except Unit (Option Str)) : Option Str := tryBody body

/-- `get_fabric_api_version` (lines 95-103): whole body inside try/except. -/
def get_fabric_api_version (body : Except Unit (Option Str)) : Option Str := tryBody body

/-- `get_mod_menu_version` (lines 106-114): whole body inside try/except. -/
def get_mod_menu_version (body : Except Unit (Option Str)) : Option Str := tryBody body

/-- The regex class `[0-9.]`. -/
def isNumDot (c : Char) : Bool := c.isDigit || c = '.'

/-- One attempt of the regex `label:\s*([0-9.]+)` at the current position
(`label` already carries the colon). -/
def forgeMatchAt (label : Str) (cs : Str) : Option Str :=
  if label.isPrefixOf cs then
    if ((cs.drop label.length).dropWhile Py.isSpace).takeWhile isNumDot = [] then none
    else some (((cs.drop label.length).dropWhile Py.isSpace).takeWhile isNumDot)
  else none

/-- `re.search` for the forge pattern: first matching position. -/
def searchForge : Nat → Str → Str → Option Str
  | 0, _, _ => none
  | _ + 1, _, [] => none
  | fuel + 1, label, c :: rest =>
      match forgeMatchAt label (c :: rest) with
      | some r => some r
      | none => searchForge fuel label rest

/-- `get_forge_version` (lines 117-127): fetch guarded by try/except; the
page is then searched for `Recommended:` and `Latest:` version numbers. -/
def get_forge_version (fetched : Except Unit Str) : Option Str :=
  match fetched with
  | .error _ => none
  | .ok html =>
      match searchForge html.length (str "Recommended:") html with
      | some m => some m
      | none => searchForge html.length (str "Latest:") html

/-- The remote behaviour visible to `collect_versions`: one HTTP fetch
outcome per endpoint, and for the three fetchers whose whole body is guarded
by try/except, the guarded body's outcome. -/
structure Env where
  neoformFetch : Except Unit Str
  neoforgeFetch : Except Unit Str
  parchmentFetch : Except Unit Str
  fabricLoaderBody : Except Unit (Option Str)
  fabricApiBody : Except Unit (Option Str)
  modMenuBody : Except Unit (Option Str)
  forgeFetch : Except Unit Str

/-- `collect_versions` (lines 130-140): builds the eight-entry dict; an
exception escaping `get_neoforge_version` propagates. -/
def collect_versions (env : Env) (mc : Str) : Except Unit (List (Str × Option Str)) :=
  match get_neoforge_version env.neoforgeFetch mc with
  | .error e => .error e
  | .ok neoforge =>
      .ok [ (str "neoform_version", get_neoform_version env.neoformFetch mc),
            (str "neoforge_version", neoforge),
            (str "parchment_minecraft", some mc),
            (str "parchment_version", get_parchment_version env.parchmentFetch),
            (str "fabric_loader_version", get_fabric_loader_version env.fabricLoaderBody),
            (str "fabric_version", get_fabric_api_version env.fabricApiBody),
            (str "mod_menu_version", get_mod_menu_version env.modMenuBody),
            (str "forge_version", get_forge_version env.forgeFetch) ]

/-- In a sorted list, every element is at most the last one. -/
theorem sorted_le_getLastD (l : List Str) (h : l.Sorted (· ≤ ·)) :
    ∀ x ∈ l, x ≤ l.getLastD [] := by
  induction l with
  | nil => intro x hx; exact absurd hx (List.not_mem_nil _)
  | cons a l ih =>
      intro x hx
      have hs := List.sorted_cons.mp h
      cases l with
      | nil =>
          rcases List.mem_singleton.mp hx with rfl
          exact le_refl _
      | cons b m =>
          have hlast : (a :: b :: m).getLastD [] = (b :: m).getLastD [] := by
            rw [List.getLastD_eq_getLast?, List.getLastD_eq_getLast?,
              List.getLast?_cons_cons]
          rw [hlast]
          rcases List.mem_cons.mp hx with rfl | hx2
          · exact le_trans (hs.1 b (List.mem_cons_self _ _))
              (ih hs.2 b (List.mem_cons_self _ _))
          · exact ih hs.2 x hx2

/-- The last element of the sorted copy of a nonempty list is its maximum
and belongs to the list. -/
theorem pySort_getLastD_max (l : List Str) (hne : l ≠ []) :
    (pySort l).getLastD [] ∈ l ∧ ∀ v ∈ l, v ≤ (pySort l).getLastD [] := by
  have hperm : (pySort l).Perm l := List.perm_insertionSort (fun a b : Str => a ≤ b) l
  have hsort : (pySort l).Sorted (fun a b : Str => a ≤ b) :=
    List.sorted_insertionSort (fun a b : Str => a ≤ b) l
  have hsne : pySort l ≠ [] := by
    intro h
    rw [← List.length_eq_zero] at h
    rw [hperm.length_eq] at h
    exact hne (List.length_eq_zero.mp h)
  constructor
  · apply hperm.mem_iff.mp
    rw [List.getLastD_eq_getLast?]
    cases hl : (pySort l).getLast? with
    | none => exact absurd (List.getLast?_eq_none_iff.mp hl) hsne
    | some a =>
        obtain ⟨ys, hys⟩ := List.getLast?_eq_some_iff.mp hl
        rw [hys]
        simp
  · intro v hv
    exact sorted_le_getLastD (pySort l) hsort v (hperm.mem_iff.mpr hv)

end SetVersion

/-- Claim C1: for every Maven metadata document and Minecraft version `mc`,
`get_artifact_latest` returns the greatest (in the string order Python's
`list.sort` uses) version among those listed in the document that start with
`mc-`, preferring final releases (no `-rc`, no `-pre`) over release
candidates and pre-releases, and returns `None` when no version has the
prefix (or when the fetch raised). -/
theorem C1_get_artifact_latest (xml mc : Str) :
    (SetVersion.get_artifact_latest (.error ()) mc = none) ∧
    (SetVersion.artifact_candidates xml mc = [] →
      SetVersion.get_artifact_latest (.ok xml) mc = none) ∧
    (SetVersion.artifact_candidates xml mc ≠ [] →
      ∃ r, SetVersion.get_artifact_latest (.ok xml) mc = some r ∧
        r ∈ SetVersion.artifact_candidates xml mc ∧
        (mc ++ ['-']) <+: r ∧
        (SetVersion.artifact_stable xml mc ≠ [] →
          r ∈ SetVersion.artifact_stable xml mc ∧
          ∀ v ∈ SetVersion.artifact_stable xml mc, v ≤ r) ∧
        (SetVersion.artifact_stable xml mc = [] →
          ∀ v ∈ SetVersion.artifact_candidates xml mc, v ≤ r)) := by
  refine ⟨rfl, ?_, ?_⟩
  · intro h
    simp [SetVersion.get_artifact_latest, h]
  · intro hne
    have hc : (SetVersion.artifact_candidates xml mc).isEmpty = false := by
      simp [List.isEmpty_iff, hne]
    by_cases hst : SetVersion.artifact_stable xml mc = []
    · have hsb : (SetVersion.artifact_stable xml mc).isEmpty = true := by simp [hst]
      have hif : SetVersion.get_artifact_latest (.ok xml) mc =
          some ((SetVersion.pySort (SetVersion.artifact_candidates xml mc)).getLastD []) := by
        simp [SetVersion.get_artifact_latest, hc, hsb]
      obtain ⟨hmem, hmax⟩ := SetVersion.pySort_getLastD_max _ hne
      refine ⟨_, hif, hmem, ?_, fun h => absurd hst h, fun _ => hmax⟩
      exact List.isPrefixOf_iff_prefix.mp (List.mem_filter.mp hmem).2
    · have hsb : (SetVersion.artifact_stable xml mc).isEmpty = false := by
        simp [List.isEmpty_iff, hst]
      have hif : SetVersion.get_artifact_latest (.ok xml) mc =
          some ((SetVersion.pySort (SetVersion.artifact_stable xml mc)).getLastD []) := by
        simp [SetVersion.get_artifact_latest, hc, hsb]
      obtain ⟨hmem, hmax⟩ := SetVersion.pySort_getLastD_max _ hst
      have hcand : (SetVersion.pySort (SetVersion.artifact_stable xml mc)).getLastD [] ∈
          SetVersion.artifact_candidates xml mc := (List.mem_filter.mp hmem).1
      refine ⟨_, hif, hcand, ?_, fun _ => ⟨hmem, hmax⟩, fun h => absurd h hst⟩
      exact List.isPrefixOf_iff_prefix.mp (List.mem_filter.mp hcand).2

/-- Witness for C1: a two-version metadata document where the newer `-rc`
build is passed over in favour of the final release. -/
theorem C1_get_artifact_latest_witness :
    SetVersion.artifact_candidates
        (str "<version>1.21.5-1.0</version><version>1.21.5-2.0-rc1</version>")
        (str "1.21.5") ≠ [] ∧
    ∃ r, SetVersion.get_artifact_latest
        (.ok (str "<version>1.21.5-1.0</version><version>1.21.5-2.0-rc1</version>"))
        (str "1.21.5") = some r ∧
      r ∈ SetVersion.artifact_candidates
        (str "<version>1.21.5-1.0</version><version>1.21.5-2.0-rc1</version>")
        (str "1.21.5") ∧
      (str "1.21.5" ++ ['-']) <+: r ∧
      (SetVersion.artifact_stable
          (str "<version>1.21.5-1.0</version><version>1.21.5-2.0-rc1</version>")
          (str "1.21.5") ≠ [] →
        r ∈ SetVersion.artifact_stable
          (str "<version>1.21.5-1.0</version><version>1.21.5-2.0-rc1</version>")
          (str "1.21.5") ∧
        ∀ v ∈ SetVersion.artifact_stable
          (str "<version>1.21.5-1.0</version><version>1.21.5-2.0-rc1</version>")
          (str "1.21.5"), v ≤ r) ∧
      (SetVersion.artifact_stable
          (str "<version>1.21.5-1.0</version><version>1.21.5-2.0-rc1</version>")
          (str "1.21.5") = [] →
        ∀ v ∈ SetVersion.artifact_candidates
          (str "<version>1.21.5-1.0</version><version>1.21.5-2.0-rc1</version>")
          (str "1.21.5"), v ≤ r) :=
  ⟨by decide,
    (C1_get_artifact_latest
        (str "<version>1.21.5-1.0</version><version>1.21.5-2.0-rc1</version>")
        (str "1.21.5")).2.2 (by decide)⟩

/-- Claim C2 counterexample: with a NeoForge metadata body that is not XML,
`get_neoforge_version` raises — `ET.fromstring` runs outside its try/except —
so `collect_versions` raises instead of returning the eight-key dict. -/
theorem C2_collect_versions_counterexample :
    SetVersion.collect_versions
      { neoformFetch := .error (), neoforgeFetch := .ok (str "hello"),
        parchmentFetch := .error (), fabricLoaderBody := .error (),
        fabricApiBody := .error (), modMenuBody := .error (),
        forgeFetch := .error () } (str "1.21.5") = .error () := rfl

/-- Claim C2 (amended): the fetchers other than the NeoForge one return a
string or `None` for every endpoint behaviour; `get_neoforge_version` guards
only its HTTP fetch, so whenever it does not raise, `collect_versions`
returns the dict with exactly its eight keys (string-or-`None` valued), and
when it raises the exception propagates out of `collect_versions`. -/
theorem C2_collect_versions_amended (env : SetVersion.Env) (mc : Str) :
    (∀ e, SetVersion.get_neoforge_version env.neoforgeFetch mc = .error e →
      SetVersion.collect_versions env mc = .error e) ∧
    (∀ ov, SetVersion.get_neoforge_version env.neoforgeFetch mc = .ok ov →
      ∃ out, SetVersion.collect_versions env mc = .ok out ∧
        out.map Prod.fst =
          [str "neoform_version", str "neoforge_version", str "parchment_minecraft",
           str "parchment_version", str "fabric_loader_version", str "fabric_version",
           str "mod_menu_version", str "forge_version"] ∧
        out.length = 8 ∧
        (str "neoforge_version", ov) ∈ out) := by
  constructor
  · intro e he
    unfold SetVersion.collect_versions
    rw [he]
  · intro ov hov
    unfold SetVersion.collect_versions
    rw [hov]
    refine ⟨_, rfl, rfl, rfl, ?_⟩
    exact List.mem_cons_of_mem _ (List.mem_cons_self _ _)

/-- Witness for the amended C2: when every fetch raises, the NeoForge fetcher
returns `None` without raising and `collect_versions` yields its eight keys. -/
theorem C2_collect_versions_amended_witness :
    SetVersion.get_neoforge_version (Except.error ()) (str "1.21.5") =
      Except.ok none ∧
    (∃ out, SetVersion.collect_versions
        { neoformFetch := .error (), neoforgeFetch := .error (),
          parchmentFetch := .error (), fabricLoaderBody := .error (),
          fabricApiBody := .error (), modMenuBody := .error (),
          forgeFetch := .error () } (str "1.21.5") = .ok out ∧
      out.map Prod.fst =
        [str "neoform_version", str "neoforge_version", str "parchment_minecraft",
         str "parchment_version", str "fabric_loader_version", str "fabric_version",
         str "mod_menu_version", str "forge_version"] ∧
      out.length = 8 ∧
      (str "neoforge_version", (none : Option Str)) ∈ out) :=
  ⟨rfl,
    (C2_collect_versions_amended
      { neoformFetch := .error (), neoforgeFetch := .error (),
        parchmentFetch := .error (), fabricLoaderBody := .error (),
        fabricApiBody := .error (), modMenuBody := .error (),
        forgeFetch := .error () } (str "1.21.5")).2 none rfl⟩

/-! ### `scripts/moddy.py`: the sub-commands that duplicate the standalone
scripts, translated independently from `moddy.py` for the equivalence claim. -/

namespace Moddy

/-- `moddy.py` `_parse_group` (lines 51-57). -/
def parse_group (props : Str) : Option Str :=
  ((Py.splitOnChar '\n' props).find?
      (fun l => (str "group=").isPrefixOf l && decide (6 < l.length))).map
    (fun l => Py.strip (l.drop 6))

/-- The service-name regex `^[A-Za-z_][A-Za-z0-9_]*$` of `cmd_add_service`. -/
def valid_service_name (name : Str) : Bool :=
  match name with
  | [] => false
  | c :: rest => (c.isAlpha || c = '_') && rest.all (fun d => d.isAlphanum || d = '_')

/-- The `files` dict of `cmd_add_service` in `moddy.py` (lines 71-89). -/
def files (group name : Str) : List (Str × Str) :=
  [ (str "common/src/main/java/" ++ group.map (fun c => if c = '.' then '/' else c) ++
        str "/platform/services/" ++ name ++ str ".java",
     str "package " ++ group ++ str ".platform.services;\n\npublic interface " ++
        name ++ str " \x7b\n\x7d\n"),
    (str "fabric/src/main/java/" ++ group.map (fun c => if c = '.' then '/' else c) ++
        str "/platform/Fabric" ++ name ++ str ".java",
     str "package " ++ group ++ str ".platform;\n\nimport " ++
        (group ++ str ".platform.services." ++ name) ++ str ";\n\npublic class Fabric" ++
        name ++ str " implements " ++ name ++ str " \x7b\n\x7d\n"),
    (str "forge/src/main/java/" ++ group.map (fun c => if c = '.' then '/' else c) ++
        str "/platform/Forge" ++ name ++ str ".java",
     str "package " ++ group ++ str ".platform;\n\nimport " ++
        (group ++ str ".platform.services." ++ name) ++ str ";\n\npublic class Forge" ++
        name ++ str " implements " ++ name ++ str " \x7b\n\x7d\n"),
    (str "neoforge/src/main/java/" ++ group.map (fun c => if c = '.' then '/' else c) ++
        str "/platform/NeoForge" ++ name ++ str ".java",
     str "package " ++ group ++ str ".platform;\n\nimport " ++
        (group ++ str ".platform.services." ++ name) ++ str ";\n\npublic class NeoForge" ++
        name ++ str " implements " ++ name ++ str " \x7b\n\x7d\n"),
    (str "fabric/src/main/resources/META-INF/services/" ++
        (group ++ str ".platform.services." ++ name),
     group ++ str ".platform.Fabric" ++ name ++ str "\n"),
    (str "forge/src/main/resources/META-INF/services/" ++
        (group ++ str ".platform.services." ++ name),
     group ++ str ".platform.Forge" ++ name ++ str "\n"),
    (str "neoforge/src/main/resources/META-INF/services/" ++
        (group ++ str ".platform.services." ++ name),
     group ++ str ".platform.NeoForge" ++ name ++ str "\n") ]

/-- `moddy.py` `cmd_add_service` (lines 60-112): `confirmed` models
`AUTO_YES or input(...) == "y"`. -/
def cmd_add_service (fs : Str → Bool) (confirmed : Bool) (props rawName : Str) :
    AddService.Outcome :=
  let name := Py.strip rawName
  if ¬ valid_service_name name then .invalidName
  else
    match parse_group props with
    | none => .noGroup
    | some group =>
        let fls := files group name
        if fls.any (fun p => fs p.1) then .existingFiles
        else if ¬ confirmed then .aborted
        else .created fls

/-- The `next_minor` computation of `_apply_versions` in `moddy.py`
(lines 269-278). -/
def next_minor (mc : Str) : Str :=
  if 2 ≤ (Py.splitOnChar '.' mc).length then
    match SetVersion.pyInt ((Py.splitOnChar '.' mc).getD 1 []) with
    | some m => (Py.splitOnChar '.' mc).getD 0 [] ++ '.' :: SetVersion.intToStr (m + 1)
    | none => mc
  else mc

/-- The `replacements` dict of `_apply_versions` in `moddy.py` (lines 279-291). -/
def replacements (mc : Str) (versions : Str → Option Str) : List (Str × Option Str) :=
  [ (str "minecraft_version", some mc),
    (str "minecraft_version_range",
      some (str "[" ++ mc ++ str ", " ++ next_minor mc ++ str ")")),
    (str "neo_form_version", versions (str "neoform_version")),
    (str "parchment_minecraft", some mc),
    (str "parchment_version", versions (str "parchment_version")),
    (str "fabric_loader_version", versions (str "fabric_loader_version")),
    (str "fabric_version", versions (str "fabric_version")),
    (str "mod_menu_version", versions (str "mod_menu_version")),
    (str "forge_version", versions (str "forge_version")),
    (str "neoforge_version", versions (str "neoforge_version")),
    (str "game_versions", some mc) ]

/-- The substitution loop of `_apply_versions` in `moddy.py` (lines 292-295). -/
def applyReplacements : List (Str × Option Str) → Str → Str
  | [], text => text
  | (k, v) :: rest, text =>
      applyReplacements rest
        (match v with
         | none => text
         | some v =>
             if v = [] then text
             else Py.joinChar '\n'
               ((Py.splitOnChar '\n' text).map
                 (fun line => if (k ++ ['=']).isPrefixOf line then k ++ '=' :: v else line)))

/-- `moddy.py` `_apply_versions` (lines 267-296) as a text transformer. -/
def apply_versions (text mc : Str) (versions : Str → Option Str) : Str :=
  applyReplacements (replacements mc versions) text

/-- The running version, `MODDY_VERSION` (moddy.py line 40). -/
def MODDY_VERSION : Str := str "0.1.0"

/-- `UPDATE_URL` (moddy.py lines 42-44): the single fixed source of updates;
the `fetched` argument of `cmd_update` is the outcome of downloading it. -/
def UPDATE_URL : Str :=
  str "https://raw.githubusercontent.com/iamkaf/modresources/main/moddy/moddy.py"

/-- The regex class `['"]`. -/
def isQuote (c : Char) : Bool := c = '\'' || c = '"'

/-- One attempt of `re.search(r"MODDY_VERSION\s*=\s*['\"]([^'\"]+)['\"]", ...)`
at the current position: the literal, optional whitespace, `=`, optional
whitespace, a quote, a maximal nonempty run of non-quote characters, a quote. -/
def moddyMatchAt (cs : Str) : Option Str :=
  if (str "MODDY_VERSION").isPrefixOf cs then
    match (cs.drop 13).dropWhile Py.isSpace with
    | '=' :: rest =>
        match rest.dropWhile Py.isSpace with
        | q :: rest2 =>
            if isQuote q then
              if (rest2.takeWhile (fun c => !(isQuote c))).isEmpty then none
              else
                match rest2.dropWhile (fun c => !(isQuote c)) with
                | _ :: _ => some (rest2.takeWhile (fun c => !(isQuote c)))
                | [] => none
            else none
        | [] => none
    | _ => none
  else none

/-- The `re.search`: first position where the version pattern matches. -/
def searchModdyVersion : Nat → Str → Option Str
  | 0, _ => none
  | _ + 1, [] => none
  | fuel + 1, c :: rest =>
      match moddyMatchAt (c :: rest) with
      | some r => some r
      | none => searchModdyVersion fuel rest

/-- The files `cmd_update` acts on: the installed script and its `.bak` copy. -/
structure UpdateState where
  script : Str
  backup : Option Str
deriving DecidableEq

/-- `cmd_update` (moddy.py lines 523-552): `confirmed` models
`AUTO_YES or input(...) == "y"`, `fetched` the download of `UPDATE_URL`.
On a replacement the backup (written first by `shutil.copy2`) holds the
previous script text. -/
def cmd_update (confirmed : Bool) (fetched : Except Unit Str) (st : UpdateState) :
    UpdateState :=
  if ¬ confirmed then st
  else
    match fetched with
    | .error _ => st
    | .ok new_code =>
        if (searchModdyVersion new_code.length new_code).getD (str "unknown") =
            MODDY_VERSION then st
        else { script := new_code, backup := some st.script }

end Moddy

/-- Claim C3 counterexample: a downloaded copy whose `MODDY_VERSION` is
`0.0.1` — strictly older than the running `0.1.0` — still replaces the
installed script: the command compares versions only for equality, not for
newness. -/
theorem C3_cmd_update_counterexample :
    Moddy.searchModdyVersion (str "MODDY_VERSION = \"0.0.1\"\n").length
        (str "MODDY_VERSION = \"0.0.1\"\n") = some (str "0.0.1") ∧
    (str "0.0.1" : Str) < Moddy.MODDY_VERSION ∧
    Moddy.cmd_update true (.ok (str "MODDY_VERSION = \"0.0.1\"\n"))
        { script := str "oldcode", backup := none } =
      { script := str "MODDY_VERSION = \"0.0.1\"\n", backup := some (str "oldcode") } := by
  refine ⟨by decide, by decide, by decide⟩

/-- Claim C3 (amended): the update command downloads from the fixed
`UPDATE_URL` and replaces the installed script exactly when the downloaded
copy's `MODDY_VERSION` (or `"unknown"` when absent) differs from the running
version — including when it is older; when the versions are equal the file is
left unchanged, and whenever the file is replaced a backup of the previous
script is written first. -/
theorem C3_cmd_update_replaces_on_difference (fetched : Except Unit Str)
    (st : Moddy.UpdateState) :
    (∀ e, fetched = .error e → Moddy.cmd_update true fetched st = st) ∧
    (Moddy.cmd_update false fetched st = st) ∧
    (∀ code, fetched = .ok code →
      ((Moddy.searchModdyVersion code.length code).getD (str "unknown") =
          Moddy.MODDY_VERSION →
        Moddy.cmd_update true fetched st = st) ∧
      ((Moddy.searchModdyVersion code.length code).getD (str "unknown") ≠
          Moddy.MODDY_VERSION →
        Moddy.cmd_update true fetched st =
          { script := code, backup := some st.script })) := by
  refine ⟨?_, rfl, ?_⟩
  · intro e he
    rw [he]
    rfl
  · intro code hc
    rw [hc]
    constructor
    · intro hv
      unfold Moddy.cmd_update
      simp [hv]
    · intro hv
      unfold Moddy.cmd_update
      simp [hv]

/-- Witness for the amended C3: a copy with a different (newer) version
replaces the script and saves the previous text as the backup. -/
theorem C3_cmd_update_replaces_on_difference_witness :
    (Moddy.searchModdyVersion (str "MODDY_VERSION = '0.2.0'\n").length
        (str "MODDY_VERSION = '0.2.0'\n")).getD (str "unknown") ≠
      Moddy.MODDY_VERSION ∧
    Moddy.cmd_update true (.ok (str "MODDY_VERSION = '0.2.0'\n"))
        { script := str "oldcode", backup := none } =
      { script := str "MODDY_VERSION = '0.2.0'\n", backup := some (str "oldcode") } :=
  ⟨by decide,
    ((C3_cmd_update_replaces_on_difference (.ok (str "MODDY_VERSION = '0.2.0'\n"))
        { script := str "oldcode", backup := none }).2.2
      (str "MODDY_VERSION = '0.2.0'\n") rfl).2 (by decide)⟩

/-- Claim C10: the standalone scripts and the corresponding moddy sub-commands
are behaviourally equivalent pure functions of their inputs: `apply_versions`
and `_apply_versions` produce identical output for every text, Minecraft
version and versions dict, and `add_service.py`'s `main` and moddy's
`cmd_add_service` compute the same seven `(path, content)` pairs (and, more
generally, the same outcome for every file-system state and every input). -/
theorem C10_moddy_equivalent_to_scripts :
    (∀ text mc versions,
      SetVersion.apply_versions text mc versions = Moddy.apply_versions text mc versions) ∧
    (∀ group name, AddService.files group name = Moddy.files group name) ∧
    (∀ fs confirmed props rawName,
      AddService.main fs confirmed props rawName =
        Moddy.cmd_add_service fs confirmed props rawName) := by
  have hfiles : ∀ group name, AddService.files group name = Moddy.files group name := by
    intro group name
    unfold AddService.files Moddy.files AddService.interface_content
      AddService.impl_content AddService.meta_content AddService.service_fqn
      AddService.pkg_path
    simp only [str, List.append_assoc]
    try rfl
  refine ⟨fun text mc versions => ?_, hfiles, fun fs confirmed props rawName => ?_⟩
  · have h1 : ∀ reps text2, SetVersion.applyReplacements reps text2 =
        Moddy.applyReplacements reps text2 := by
      intro reps
      induction reps with
      | nil => intro text2; rfl
      | cons p rest ih =>
          intro text2
          obtain ⟨k, v⟩ := p
          cases v with
          | none =>
              rw [SetVersion.applyReplacements_cons_none]
              rw [show Moddy.applyReplacements ((k, none) :: rest) text2 =
                Moddy.applyReplacements rest text2 from rfl]
              exact ih text2
          | some v =>
              rw [SetVersion.applyReplacements_cons_some]
              rw [show Moddy.applyReplacements ((k, some v) :: rest) text2 =
                Moddy.applyReplacements rest
                  (if v = [] then text2
                   else Py.joinChar '\n'
                     ((Py.splitOnChar '\n' text2).map
                       (fun line =>
                         if (k ++ ['=']).isPrefixOf line then k ++ '=' :: v else line)))
                from rfl]
              exact ih _
    exact h1 _ text
  · unfold AddService.main Moddy.cmd_add_service
    rw [show AddService.valid_service_name = Moddy.valid_service_name from by
      funext name
      unfold AddService.valid_service_name Moddy.valid_service_name
        AddService.isWordStart AddService.isWordChar
      rfl]
    rw [show AddService.parse_group = Moddy.parse_group from rfl]
    rw [show AddService.files = Moddy.files from funext (fun g => funext (fun n => hfiles g n))]

/-- Witness for C7 at a concrete text and version: the line count is kept. -/
theorem C7_apply_versions_frame_witness :
    (∀ p ∈ SetVersion.replacements (str "1.21.5") (fun _ => none), '\n' ∉ p.2.getD []) ∧
    (Py.splitOnChar '\n' (SetVersion.apply_versions
        (str "other=x\nminecraft_version=1.20.1") (str "1.21.5") (fun _ => none))).length =
      (Py.splitOnChar '\n' (str "other=x\nminecraft_version=1.20.1")).length :=
  ⟨by decide,
    (C7_apply_versions_frame (str "other=x\nminecraft_version=1.20.1") (str "1.21.5")
        (fun _ => none) (by decide)).1⟩


/-! ### `scripts/setup_mod.py`: `create_icon` (byte-identical to
`_create_icon` in `moddy.py`). -/

namespace SetupMod

/-- The 8x8 bitmap font of `create_icon` (rows are bitmasks, MSB = leftmost). -/
def font : List (Char × List Nat) :=
  [('A', [0b00111000, 0b01000100, 0b10000010, 0b10000010, 0b11111110, 0b10000010, 0b10000010, 0b00000000]),
    ('B', [0b11111100, 0b10000010, 0b10000010, 0b11111100, 0b10000010, 0b10000010, 0b11111100, 0b00000000]),
    ('C', [0b01111110, 0b10000000, 0b10000000, 0b10000000, 0b10000000, 0b10000000, 0b01111110, 0b00000000]),
    ('D', [0b11111100, 0b10000010, 0b10000010, 0b10000010, 0b10000010, 0b10000010, 0b11111100, 0b00000000]),
    ('E', [0b11111110, 0b10000000, 0b10000000, 0b11111100, 0b10000000, 0b10000000, 0b11111110, 0b00000000]),
    ('F', [0b11111110, 0b10000000, 0b10000000, 0b11111100, 0b10000000, 0b10000000, 0b10000000, 0b00000000]),
    ('G', [0b01111110, 0b10000000, 0b10000000, 0b10001110, 0b10000010, 0b10000010, 0b01111110, 0b00000000]),
    ('H', [0b10000010, 0b10000010, 0b10000010, 0b11111110, 0b10000010, 0b10000010, 0b10000010, 0b00000000]),
    ('I', [0b01111100, 0b00010000, 0b00010000, 0b00010000, 0b00010000, 0b00010000, 0b01111100, 0b00000000]),
    ('J', [0b00111110, 0b00000010, 0b00000010, 0b00000010, 0b10000010, 0b10000010, 0b01111100, 0b00000000]),
    ('K', [0b10000010, 0b10000100, 0b10001000, 0b10110000, 0b11001000, 0b10000100, 0b10000010, 0b00000000]),
    ('L', [0b10000000, 0b10000000, 0b10000000, 0b10000000, 0b10000000, 0b10000000, 0b11111110, 0b00000000]),
    ('M', [0b10000010, 0b11000110, 0b10101010, 0b10010010, 0b10000010, 0b10000010, 0b10000010, 0b00000000]),
    ('N', [0b10000010, 0b11000010, 0b10100010, 0b10010010, 0b10001010, 0b10000110, 0b10000010, 0b00000000]),
    ('O', [0b01111100, 0b10000010, 0b10000010, 0b10000010, 0b10000010, 0b10000010, 0b01111100, 0b00000000]),
    ('P', [0b11111100, 0b10000010, 0b10000010, 0b11111100, 0b10000000, 0b10000000, 0b10000000, 0b00000000]),
    ('Q', [0b01111100, 0b10000010, 0b10000010, 0b10000010, 0b10001010, 0b10000100, 0b01111010, 0b00000000]),
    ('R', [0b11111100, 0b10000010, 0b10000010, 0b11111100, 0b10001000, 0b10000100, 0b10000010, 0b00000000]),
    ('S', [0b01111100, 0b10000010, 0b10000000, 0b01111100, 0b00000010, 0b10000010, 0b01111100, 0b00000000]),
    ('T', [0b11111110, 0b00010000, 0b00010000, 0b00010000, 0b00010000, 0b00010000, 0b00010000, 0b00000000]),
    ('U', [0b10000010, 0b10000010, 0b10000010, 0b10000010, 0b10000010, 0b10000010, 0b01111100, 0b00000000]),
    ('V', [0b10000010, 0b10000010, 0b10000010, 0b01000100, 0b01000100, 0b00101000, 0b00010000, 0b00000000]),
    ('W', [0b10000010, 0b10000010, 0b10000010, 0b10010010, 0b10101010, 0b11000110, 0b10000010, 0b00000000]),
    ('X', [0b10000010, 0b01000100, 0b00101000, 0b00010000, 0b00101000, 0b01000100, 0b10000010, 0b00000000]),
    ('Y', [0b10000010, 0b01000100, 0b00101000, 0b00010000, 0b00010000, 0b00010000, 0b00010000, 0b00000000]),
    ('Z', [0b11111110, 0b00000010, 0b00000100, 0b00001000, 0b00010000, 0b00100000, 0b11111110, 0b00000000]) ]

/-- `char.upper() in font` / `font[char.upper()]`. -/
def fontLookup (c : Char) : Option (List Nat) :=
  (font.find? (fun p => p.1 = c)).map Prod.snd

/-- The RGBA bytes of the pixel at `(x, y)` produced by the pixel loop:
the glyph box spans `[128, 384)` in both axes with 32-pixel cells
(`w = h = 512`, `s = 32`, `ox = oy = 128`); a set font bit is opaque white,
everything else the background colour `(66, 135, 245)`. -/
def pixelRGBA (ch : Char) (y x : Nat) : List Nat :=
  match fontLookup ch.toUpper with
  | some rows =>
      if 128 ≤ x ∧ x < 384 ∧ 128 ≤ y ∧ y < 384 then
        if (rows.getD ((y - 128) / 32) 0) &&& (1 <<< (7 - (x - 128) / 32)) ≠ 0 then
          [255, 255, 255, 255]
        else [66, 135, 245, 255]
      else [66, 135, 245, 255]
  | none => [66, 135, 245, 255]

/-- The flat pixel buffer `pix`: 512 rows of 512 RGBA pixels. -/
def pix (ch : Char) : List Nat :=
  (List.range 512).flatMap (fun y => (List.range 512).flatMap (fun x => pixelRGBA ch y x))

/-- The uncompressed image data `raw`: for each scanline, the filter byte `0`
followed by the `w*4`-byte slice of `pix` (exactly as the source slices it). -/
def raw (ch : Char) : List Nat :=
  (List.range 512).flatMap (fun i => 0 :: (((pix ch).drop (i * 2048)).take 2048))

/-- One step of the reflected CRC-32 polynomial 0xEDB88320. -/
def crc32Step (c : Nat) : Nat := if c % 2 = 1 then (c / 2) ^^^ 0xEDB88320 else c / 2

def crc32Steps : Nat → Nat → Nat
  | 0, c => c
  | n + 1, c => crc32Steps n (crc32Step c)

/-- `zlib.crc32(data) & 0xffffffff`: the standard CRC-32 checksum. -/
def crc32 (data : List Nat) : Nat :=
  (data.foldl (fun c b => crc32Steps 8 (c ^^^ b % 256)) 0xFFFFFFFF) ^^^ 0xFFFFFFFF

/-- `struct.pack('>I', n)`: four big-endian bytes. -/
def be32 (n : Nat) : List Nat :=
  [n / 16777216 % 256, n / 65536 % 256, n / 256 % 256, n % 256]

/-- `chunk(t, d)`: big-endian data length, type, data, CRC32 of type+data. -/
def chunk (t d : List Nat) : List Nat :=
  be32 d.length ++ t ++ d ++ be32 (crc32 (t ++ d))

/-- `b'\x89PNG\r\n\x1a\n'`. -/
def pngSignature : List Nat := [0x89, 0x50, 0x4E, 0x47, 0x0D, 0x0A, 0x1A, 0x0A]

def IHDRtype : List Nat := [0x49, 0x48, 0x44, 0x52]

def IDATtype : List Nat := [0x49, 0x44, 0x41, 0x54]

def IENDtype : List Nat := [0x49, 0x45, 0x4E, 0x44]

/-- `struct.pack('>IIBBBBB', w, h, 8, 6, 0, 0, 0)` with `w = h = 512`. -/
def ihdrData : List Nat := be32 512 ++ be32 512 ++ [8, 6, 0, 0, 0]

/-- `create_icon` as the byte stream written to the icon file. `zlibCompress`
abstracts `zlib.compress` (the DEFLATE encoding itself is not re-verified);
everything else is translated from the source. -/
def create_icon (zlibCompress : List Nat → List Nat) (ch : Char) : List Nat :=
  pngSignature ++ chunk IHDRtype ihdrData ++
    chunk IDATtype (zlibCompress (raw ch)) ++ chunk IENDtype []

/-- `flatMap` over constant-length blocks has predictable length. -/
theorem flatMap_length_const (f : Nat → List Nat) (k : Nat) (L : List Nat)
    (hf : ∀ a ∈ L, (f a).length = k) : (L.flatMap f).length = L.length * k := by
  induction L with
  | nil => simp
  | cons a rest ih =>
      rw [List.flatMap_cons, List.length_append, hf a (List.mem_cons_self _ _),
        ih (fun b hb => hf b (List.mem_cons_of_mem _ hb)), List.length_cons]
      ring

/-- Slicing a `flatMap` of constant-length blocks recovers one block. -/
theorem flatMap_slice (f : Nat → List Nat) (k : Nat) (hk : ∀ a, (f a).length = k) :
    ∀ (L : List Nat) (i : Nat) (hi : i < L.length),
      (((L.flatMap f).drop (i * k)).take k) = f (L.get ⟨i, hi⟩) := by
  intro L
  induction L with
  | nil =>
      intro i hi
      exact absurd hi (by simp)
  | cons a rest ih =>
      intro i hi
      cases i with
      | zero =>
          rw [List.flatMap_cons, Nat.zero_mul, List.drop_zero, ← hk a]
          exact List.take_left _ _
      | succ i =>
          rw [List.flatMap_cons]
          have harith : (i + 1) * k = k + i * k := by ring
          rw [harith, ← List.drop_drop, ← hk a, List.drop_left]
          rw [hk a]
          exact ih i (Nat.lt_of_succ_lt_succ hi)

/-- Pointwise-equal functions give equal `flatMap`s. -/
theorem flatMap_congr (f g : Nat → List Nat) (L : List Nat)
    (h : ∀ a ∈ L, f a = g a) : L.flatMap f = L.flatMap g := by
  induction L with
  | nil => rfl
  | cons a rest ih =>
      rw [List.flatMap_cons, List.flatMap_cons, h a (List.mem_cons_self _ _),
        ih (fun b hb => h b (List.mem_cons_of_mem _ hb))]

/-- Every pixel is four bytes. -/
theorem pixelRGBA_length (ch : Char) (y x : Nat) : (pixelRGBA ch y x).length = 4 := by
  unfold pixelRGBA
  cases fontLookup ch.toUpper with
  | none => rfl
  | some rows =>
      dsimp only
      split
      · split <;> rfl
      · rfl

/-- The `raw` buffer is exactly 512 scanlines: a filter byte `0` followed by
the 512 RGBA pixels of that row. -/
theorem raw_eq_scanlines (ch : Char) :
    raw ch = (List.range 512).flatMap
      (fun y => 0 :: (List.range 512).flatMap (fun x => pixelRGBA ch y x)) := by
  unfold raw
  apply flatMap_congr
  intro i hi
  have hrow : ∀ y : Nat, ((List.range 512).flatMap (fun x => pixelRGBA ch y x)).length = 2048 := by
    intro y
    rw [flatMap_length_const _ 4 _ (fun x _ => pixelRGBA_length ch y x), List.length_range]
  have hi512 : i < 512 := List.mem_range.mp hi
  have hslice := flatMap_slice (fun y => (List.range 512).flatMap (fun x => pixelRGBA ch y x))
    2048 hrow (List.range 512) i (by rwa [List.length_range])
  simp only [List.get_eq_getElem, List.getElem_range] at hslice
  unfold pix
  rw [hslice]

end SetupMod

/-! ### Generic string-combinatorics lemmas, used for the setup content pass. -/

/-- An infix of an append lies in the left part, lies in the right part, or
spans the boundary. -/
theorem infix_append_cases {k x y : Str} (h : k <:+: x ++ y) :
    k <:+: x ∨ k <:+: y ∨
      ∃ a b, a ++ b = k ∧ a ≠ [] ∧ b ≠ [] ∧ a <:+ x ∧ b <+: y := by
  obtain ⟨s, t, e⟩ := h
  have e2 : s ++ (k ++ t) = x ++ y := by rw [← e]; simp [List.append_assoc]
  rcases List.append_eq_append_iff.mp e2 with ⟨a', hx, hky⟩ | ⟨c', _, hy⟩
  · rcases List.append_eq_append_iff.mp hky with ⟨b', ha', _⟩ | ⟨k', hk, hy2⟩
    · left
      exact ⟨s, b', by rw [hx, ha']; simp [List.append_assoc]⟩
    · by_cases ha0 : a' = []
      · right; left
        subst ha0
        simp only [List.nil_append] at hk
        exact ⟨[], t, by rw [List.nil_append, hk, ← hy2]⟩
      · by_cases hk0 : k' = []
        · left
          subst hk0
          rw [List.append_nil] at hk
          exact ⟨s, [], by rw [hx, ← hk]; simp⟩
        · right; right
          exact ⟨a', k', hk.symm, ha0, hk0, ⟨s, hx.symm⟩, ⟨t, hy2.symm⟩⟩
  · right; left
    exact ⟨c', t, by rw [hy]; simp [List.append_assoc]⟩

/-- A prefix of an append either stops in the left part or covers it. -/
theorem prefix_append_cases {y a b : Str} (h : y <+: a ++ b) :
    y <+: a ∨ ∃ z, y = a ++ z ∧ z <+: b := by
  obtain ⟨t, e⟩ := h
  rcases List.append_eq_append_iff.mp e with ⟨a', ha, _⟩ | ⟨c', hy, hb⟩
  · left; exact ⟨a', ha.symm⟩
  · right; exact ⟨c', hy, ⟨t, hb.symm⟩⟩

/-- An infix of `c :: t` is a prefix of it or an infix of `t`. -/
theorem infix_cons_cases {k : Str} {c : Char} {t : Str} (h : k <:+: c :: t) :
    k <+: c :: t ∨ k <:+: t := by
  obtain ⟨s, u, e⟩ := h
  cases s with
  | nil => left; exact ⟨u, by simpa using e⟩
  | cons d s' =>
      right
      have e2 : d :: (s' ++ k ++ u) = c :: t := by simpa using e
      injection e2 with _ h2
      exact ⟨s', u, h2⟩

/-- A proper nonempty suffix of `new` is `new.drop n` for an interior `n`. -/
theorem suffix_as_drop {a new : Str} (h : a <:+ new) (hne : a ≠ new) (h0 : a ≠ []) :
    ∃ n, 0 < n ∧ n < new.length ∧ new.drop n = a := by
  obtain ⟨w, hw⟩ := h
  refine ⟨w.length, ?_, ?_, ?_⟩
  · cases w with
    | nil => exact absurd (by simpa using hw) hne
    | cons c cs => simp
  · rw [← hw, List.length_append]
    have := List.length_pos.mpr h0
    omega
  · rw [← hw]
    exact List.drop_left w a

/-- A prefix of `new` is `new.take` of its length. -/
theorem prefix_as_take {b new : Str} (h : b <+: new) : new.take b.length = b :=
  (List.prefix_iff_eq_take.mp h).symm

/-- `sep.join(parts)` for a string separator (the shape of a replaced text). -/
def interStr (sep : Str) : List Str → Str
  | [] => []
  | [p] => p
  | p :: ps => p ++ sep ++ interStr sep ps

theorem interStr_cons_cons (sep p q : Str) (ps : List Str) :
    interStr sep (p :: q :: ps) = p ++ sep ++ interStr sep (q :: ps) := rfl

namespace SetupMod

/-- Python `str.replace(old, new)` for nonempty `old`: scan left to right and
replace every non-overlapping occurrence (fuel-based; `fuel = s.length`
always suffices). -/
def pyReplaceAux (old new : Str) : Nat → Str → Str
  | 0, s => s
  | _ + 1, [] => []
  | fuel + 1, c :: rest =>
      if old.isPrefixOf (c :: rest) then
        new ++ pyReplaceAux old new fuel ((c :: rest).drop old.length)
      else c :: pyReplaceAux old new fuel rest

def pyReplace (old new s : Str) : Str := pyReplaceAux old new s.length s

/-- Python `str.split(old)`, the same scan keeping the pieces between the
occurrences. -/
def pySplitAux (old : Str) : Nat → Str → List Str
  | 0, s => [s]
  | _ + 1, [] => [[]]
  | fuel + 1, c :: rest =>
      if old.isPrefixOf (c :: rest) then
        [] :: pySplitAux old fuel ((c :: rest).drop old.length)
      else
        match pySplitAux old fuel rest with
        | [] => [[c]]
        | p :: ps => (c :: p) :: ps

def pySplit (old s : Str) : List Str := pySplitAux old s.length s

theorem pyReplaceAux_cons (old new : Str) (fuel : Nat) (c : Char) (rest : Str) :
    pyReplaceAux old new (fuel + 1) (c :: rest) =
      if old.isPrefixOf (c :: rest) then
        new ++ pyReplaceAux old new fuel ((c :: rest).drop old.length)
      else c :: pyReplaceAux old new fuel rest := rfl

theorem pySplitAux_cons (old : Str) (fuel : Nat) (c : Char) (rest : Str) :
    pySplitAux old (fuel + 1) (c :: rest) =
      if old.isPrefixOf (c :: rest) then
        [] :: pySplitAux old fuel ((c :: rest).drop old.length)
      else
        match pySplitAux old fuel rest with
        | [] => [[c]]
        | p :: ps => (c :: p) :: ps := rfl

theorem pySplitAux_ne_nil (old : Str) (fuel : Nat) (s : Str) :
    pySplitAux old fuel s ≠ [] := by
  cases fuel with
  | zero => simp [pySplitAux]
  | succ fuel =>
      cases s with
      | nil => simp [pySplitAux]
      | cons c rest =>
          unfold pySplitAux
          split
          · simp
          · split <;> simp

/-- `str.replace` is the `new`-join of the `old`-split. -/
theorem pyReplaceAux_eq_interStr (old new : Str) (hold : old ≠ []) :
    ∀ fuel s, s.length ≤ fuel →
      pyReplaceAux old new fuel s = interStr new (pySplitAux old fuel s) := by
  intro fuel
  induction fuel with
  | zero =>
      intro s hs
      have : s = [] := List.eq_nil_of_length_eq_zero (Nat.le_zero.mp hs)
      subst this
      rfl
  | succ fuel ih =>
      intro s hs
      cases s with
      | nil => rfl
      | cons c rest =>
          by_cases hp : old.isPrefixOf (c :: rest)
          · have h1 : pyReplaceAux old new (fuel + 1) (c :: rest) =
                new ++ pyReplaceAux old new fuel ((c :: rest).drop old.length) := by
              rw [pyReplaceAux_cons, if_pos hp]
            have h2 : pySplitAux old (fuel + 1) (c :: rest) =
                [] :: pySplitAux old fuel ((c :: rest).drop old.length) := by
              rw [pySplitAux_cons, if_pos hp]
            have hlen : ((c :: rest).drop old.length).length ≤ fuel := by
              rw [List.length_drop]
              have := List.length_pos.mpr hold
              simp only [List.length_cons] at hs ⊢
              omega
            rw [h1, h2, ih _ hlen]
            obtain ⟨p, ps, hps⟩ :
                ∃ p ps, pySplitAux old fuel ((c :: rest).drop old.length) = p :: ps := by
              cases h : pySplitAux old fuel ((c :: rest).drop old.length) with
              | nil => exact absurd h (pySplitAux_ne_nil old fuel _)
              | cons p ps => exact ⟨p, ps, rfl⟩
            rw [hps]
            rw [show interStr new ([] :: p :: ps) = [] ++ new ++ interStr new (p :: ps) from rfl]
            simp
          · have h1 : pyReplaceAux old new (fuel + 1) (c :: rest) =
                c :: pyReplaceAux old new fuel rest := by
              rw [pyReplaceAux_cons, if_neg hp]
            have hlen : rest.length ≤ fuel := by
              simp only [List.length_cons] at hs
              omega
            obtain ⟨p, ps, hps⟩ : ∃ p ps, pySplitAux old fuel rest = p :: ps := by
              cases h : pySplitAux old fuel rest with
              | nil => exact absurd h (pySplitAux_ne_nil old fuel _)
              | cons p ps => exact ⟨p, ps, rfl⟩
            have h2 : pySplitAux old (fuel + 1) (c :: rest) = (c :: p) :: ps := by
              rw [pySplitAux_cons, if_neg hp, hps]
            rw [h1, h2, ih _ hlen, hps]
            cases ps with
            | nil => rfl
            | cons q ps2 =>
                rw [interStr_cons_cons, interStr_cons_cons]
                simp

/-- Joining the split with `old` itself reconstructs the input. -/
theorem interStr_pySplitAux (old : Str) (hold : old ≠ []) :
    ∀ fuel s, s.length ≤ fuel → interStr old (pySplitAux old fuel s) = s := by
  intro fuel
  induction fuel with
  | zero =>
      intro s hs
      have : s = [] := List.eq_nil_of_length_eq_zero (Nat.le_zero.mp hs)
      subst this
      rfl
  | succ fuel ih =>
      intro s hs
      cases s with
      | nil => rfl
      | cons c rest =>
          by_cases hp : old.isPrefixOf (c :: rest)
          · have h2 : pySplitAux old (fuel + 1) (c :: rest) =
                [] :: pySplitAux old fuel ((c :: rest).drop old.length) := by
              rw [pySplitAux_cons, if_pos hp]
            have hlen : ((c :: rest).drop old.length).length ≤ fuel := by
              rw [List.length_drop]
              have := List.length_pos.mpr hold
              simp only [List.length_cons] at hs ⊢
              omega
            rw [h2]
            obtain ⟨p, ps, hps⟩ :
                ∃ p ps, pySplitAux old fuel ((c :: rest).drop old.length) = p :: ps := by
              cases h : pySplitAux old fuel ((c :: rest).drop old.length) with
              | nil => exact absurd h (pySplitAux_ne_nil old fuel _)
              | cons p ps => exact ⟨p, ps, rfl⟩
            rw [hps]
            rw [show interStr old ([] :: p :: ps) = [] ++ old ++ interStr old (p :: ps) from rfl]
            rw [← hps, ih _ hlen]
            have hpre := List.isPrefixOf_iff_prefix.mp hp
            have := prefix_as_take hpre
            rw [List.nil_append]
            nth_rewrite 2 [← List.take_append_drop old.length (c :: rest)]
            rw [this]
          · have hlen : rest.length ≤ fuel := by
              simp only [List.length_cons] at hs
              omega
            obtain ⟨p, ps, hps⟩ : ∃ p ps, pySplitAux old fuel rest = p :: ps := by
              cases h : pySplitAux old fuel rest with
              | nil => exact absurd h (pySplitAux_ne_nil old fuel _)
              | cons p ps => exact ⟨p, ps, rfl⟩
            have h2 : pySplitAux old (fuel + 1) (c :: rest) = (c :: p) :: ps := by
              rw [pySplitAux_cons, if_neg hp, hps]
            rw [h2]
            have hrec := ih rest hlen
            rw [hps] at hrec
            cases ps with
            | nil =>
                rw [show interStr old [c :: p] = c :: p from rfl]
                rw [show interStr old [p] = p from rfl] at hrec
                rw [hrec]
            | cons q ps2 =>
                rw [interStr_cons_cons] at hrec ⊢
                rw [List.append_assoc] at hrec
                simp only [List.cons_append, List.append_assoc]
                rw [hrec]

/-- The head part of the split is a prefix of the input. -/
theorem pySplitAux_head_prefix (old : Str) :
    ∀ fuel s p ps, pySplitAux old fuel s = p :: ps → p <+: s := by
  intro fuel
  induction fuel with
  | zero =>
      intro s p ps h
      simp only [pySplitAux] at h
      injection h with h1 _
      rw [← h1]
  | succ fuel ih =>
      intro s p ps h
      cases s with
      | nil =>
          simp only [pySplitAux] at h
          injection h with h1 _
          rw [← h1]
      | cons c rest =>
          rw [pySplitAux_cons] at h
          split at h
          · injection h with h1 _
            rw [← h1]
            exact List.nil_prefix
          · obtain ⟨p2, ps2, hps2⟩ : ∃ p2 ps2, pySplitAux old fuel rest = p2 :: ps2 := by
              cases hx : pySplitAux old fuel rest with
              | nil => exact absurd hx (pySplitAux_ne_nil old fuel _)
              | cons p2 ps2 => exact ⟨p2, ps2, rfl⟩
            rw [hps2] at h
            injection h with h1 _
            rw [← h1]
            obtain ⟨t, ht⟩ := ih rest p2 ps2 hps2
            exact ⟨t, by rw [List.cons_append, ht]⟩

/-- No part of the split contains the separator. -/
theorem pySplitAux_parts_free (old : Str) (hold : old ≠ []) :
    ∀ fuel s, s.length ≤ fuel → ∀ p ∈ pySplitAux old fuel s, ¬ old <:+: p := by
  intro fuel
  induction fuel with
  | zero =>
      intro s hs p hp
      have : s = [] := List.eq_nil_of_length_eq_zero (Nat.le_zero.mp hs)
      subst this
      simp only [pySplitAux, List.mem_singleton] at hp
      subst hp
      intro h
      exact hold (List.infix_nil.mp h)
  | succ fuel ih =>
      intro s hs p hp
      cases s with
      | nil =>
          simp only [pySplitAux, List.mem_singleton] at hp
          subst hp
          intro h
          exact hold (List.infix_nil.mp h)
      | cons c rest =>
          rw [pySplitAux_cons] at hp
          split at hp
          · have hlen : ((c :: rest).drop old.length).length ≤ fuel := by
              rw [List.length_drop]
              have := List.length_pos.mpr hold
              simp only [List.length_cons] at hs ⊢
              omega
            rcases List.mem_cons.mp hp with rfl | hp2
            · intro h
              exact hold (List.infix_nil.mp h)
            · exact ih _ hlen p hp2
          · rename_i hnp
            have hlen : rest.length ≤ fuel := by
              simp only [List.length_cons] at hs
              omega
            obtain ⟨p2, ps2, hps2⟩ : ∃ p2 ps2, pySplitAux old fuel rest = p2 :: ps2 := by
              cases hx : pySplitAux old fuel rest with
              | nil => exact absurd hx (pySplitAux_ne_nil old fuel _)
              | cons p2 ps2 => exact ⟨p2, ps2, rfl⟩
            rw [hps2] at hp
            rcases List.mem_cons.mp hp with rfl | hp2
            · intro h
              rcases infix_cons_cases h with hpre | hinf
              · obtain ⟨o0, o', rfl⟩ :
                    ∃ o0 o', old = o0 :: o' := by
                  cases old with
                  | nil => exact absurd rfl hold
                  | cons o0 o' => exact ⟨o0, o', rfl⟩
                obtain ⟨w, hw⟩ := hpre
                have hw2 : o0 :: (o' ++ w) = c :: p2 := by simpa using hw
                injection hw2 with he1 he2
                have hp2pre := pySplitAux_head_prefix (o0 :: o') fuel rest p2 ps2 hps2
                obtain ⟨w2, hw2b⟩ := hp2pre
                apply hnp
                apply List.isPrefixOf_iff_prefix.mpr
                refine ⟨w ++ w2, ?_⟩
                rw [he1, List.cons_append]
                have hmid : o' ++ (w ++ w2) = p2 ++ w2 := by
                  rw [← List.append_assoc, he2]
                rw [hmid, hw2b]
              · exact ih rest hlen p2 (hps2 ▸ List.mem_cons_self p2 ps2) hinf
            · exact ih rest hlen p (hps2 ▸ List.mem_cons_of_mem p2 hp2)

/-- Overlap-freedom of a replacement pair with itself: the value neither
contains nor is contained in the old string, no nonempty proper suffix of the
value is a prefix of the old string, and no nonempty proper prefix of the
value is a suffix of the old string.  Under these conditions a replacement
pass cannot recreate the very string it removes. -/
def SelfSafe (old new : Str) : Prop :=
  ¬ old <:+: new ∧ ¬ new <:+: old ∧
  ∀ n, n < new.length → 0 < n →
    ¬ (new.drop n) <+: old ∧ ¬ (new.take n) <:+ old

/-- Boundary conditions letting an occurrence of an earlier placeholder `kj`
in the output of the pass for `(old, new)` be mapped back to the input: `kj`
neither contains nor is contained in the value, and any edge piece of `kj`
that abuts the substituted value also abuts the removed `old` the same way. -/
def MapBack (kj old new : Str) : Prop :=
  ¬ kj <:+: new ∧ ¬ new <:+: kj ∧
  ∀ n, n < kj.length → 0 < n →
    ((kj.take n) <:+ new → (kj.take n) <:+ old) ∧
    ((kj.drop n) <+: new → (kj.drop n) <+: old)

instance (old new : Str) : Decidable (SelfSafe old new) := by
  unfold SelfSafe
  infer_instance

instance (kj old new : Str) : Decidable (MapBack kj old new) := by
  unfold MapBack
  infer_instance

/-- Replacing the parts' separator by a self-safe value leaves no occurrence
of the separator. -/
theorem self_safe_interStr (old new : Str) (holdne : old ≠ [])
    (hs : SelfSafe old new) :
    ∀ parts : List Str, (∀ p ∈ parts, ¬ old <:+: p) →
      ¬ old <:+: interStr new parts := by
  intro parts
  induction parts with
  | nil =>
      intro _ h
      exact holdne (List.infix_nil.mp h)
  | cons p ps ih =>
      intro hfree
      cases ps with
      | nil => exact hfree p (List.mem_cons_self _ _)
      | cons q ps2 =>
          intro h
          rw [interStr_cons_cons, List.append_assoc] at h
          rcases infix_append_cases h with h1 | h1 | h1
          · exact hfree p (List.mem_cons_self _ _) h1
          · rcases infix_append_cases h1 with h2 | h2 | h2
            · exact hs.1 h2
            · exact ih (fun r hr => hfree r (List.mem_cons_of_mem _ hr)) h2
            · obtain ⟨a, b, hab, ha0, hb0, hsa, _⟩ := h2
              by_cases hane : a = new
              · exact hs.2.1 ⟨[], b, by rw [List.nil_append, ← hane]; exact hab⟩
              · obtain ⟨n, hn0, hnl, hdrop⟩ := suffix_as_drop hsa hane ha0
                apply (hs.2.2 n hnl hn0).1
                rw [hdrop]
                exact ⟨b, hab⟩
          · obtain ⟨a, b, hab, _, hb0, _, hpb⟩ := h1
            rcases prefix_append_cases hpb with h2 | ⟨z, hz, _⟩
            · by_cases hbne : b = new
              · exact hs.2.1 ⟨a, [], by rw [List.append_nil, ← hbne]; exact hab⟩
              · have htake := prefix_as_take h2
                have hn0 : 0 < b.length := List.length_pos.mpr hb0
                have hnl : b.length < new.length := by
                  rcases lt_or_eq_of_le h2.length_le with h3 | h3
                  · exact h3
                  · exact absurd (List.IsPrefix.eq_of_length h2 h3) hbne
                apply (hs.2.2 b.length hnl hn0).2
                rw [htake]
                exact ⟨a, hab⟩
            · exact hs.2.1 ⟨a, z, by rw [List.append_assoc, ← hz]; exact hab⟩

/-- An occurrence of `kj` in the value-joined parts maps back to an
occurrence in the `old`-joined parts, under the `MapBack` conditions. -/
theorem mapback_interStr (kj old new : Str) (hmb : MapBack kj old new) :
    ∀ parts : List Str, kj <:+: interStr new parts → kj <:+: interStr old parts := by
  intro parts
  induction parts with
  | nil => exact id
  | cons p ps ih =>
      cases ps with
      | nil => exact id
      | cons q ps2 =>
          intro h
          rw [interStr_cons_cons, List.append_assoc] at h
          rw [interStr_cons_cons, List.append_assoc]
          rcases infix_append_cases h with h1 | h1 | h1
          · exact h1.trans ⟨[], old ++ interStr old (q :: ps2), by simp⟩
          · rcases infix_append_cases h1 with h2 | h2 | h2
            · exact absurd h2 hmb.1
            · exact (ih h2).trans ⟨p ++ old, [], by simp [List.append_assoc]⟩
            · obtain ⟨a, b, hab, ha0, hb0, hsa, hpb⟩ := h2
              by_cases hane : a = new
              · exact absurd ⟨[], b, by rw [List.nil_append, ← hane]; exact hab⟩ hmb.2.1
              · have htk : kj.take a.length = a := by
                  rw [← hab]
                  exact List.take_left a b
                have hn0 : 0 < a.length := List.length_pos.mpr ha0
                have hnl : a.length < kj.length := by
                  rw [← hab, List.length_append]
                  have := List.length_pos.mpr hb0
                  omega
                have hao : a <:+ old := by
                  have h4 := (hmb.2.2 a.length hnl hn0).1
                  rw [htk] at h4
                  exact h4 hsa
                obtain ⟨w, hw⟩ := hao
                cases ps2 with
                | nil =>
                    obtain ⟨t2, ht2⟩ := hpb
                    refine ⟨p ++ w, t2, ?_⟩
                    show (p ++ w) ++ kj ++ t2 = p ++ (old ++ interStr old [q])
                    rw [show interStr old [q] = q from rfl,
                      show interStr new [q] = q from rfl] at *
                    rw [← hab, ← hw, ← ht2]
                    simp [List.append_assoc]
                | cons q2 ps3 =>
                    rw [interStr_cons_cons, List.append_assoc] at hpb
                    rcases prefix_append_cases hpb with h5 | ⟨z, hz, hzp⟩
                    · obtain ⟨t2, ht2⟩ := h5
                      refine ⟨p ++ w, t2 ++ (old ++ interStr old (q2 :: ps3)), ?_⟩
                      rw [interStr_cons_cons]
                      show (p ++ w) ++ kj ++ (t2 ++ (old ++ interStr old (q2 :: ps3))) =
                        p ++ (old ++ (q ++ old ++ interStr old (q2 :: ps3)))
                      rw [← hab, ← hw, ← ht2]
                      simp [List.append_assoc]
                    · rcases prefix_append_cases hzp with h6 | ⟨z2, hz2, _⟩
                      · by_cases hz0 : z = []
                        · subst hz0
                          rw [List.append_nil] at hz
                          refine ⟨p ++ w, old ++ interStr old (q2 :: ps3), ?_⟩
                          rw [interStr_cons_cons]
                          show (p ++ w) ++ kj ++ (old ++ interStr old (q2 :: ps3)) =
                            p ++ (old ++ (q ++ old ++ interStr old (q2 :: ps3)))
                          rw [← hab, hz, ← hw]
                          simp [List.append_assoc]
                        · by_cases hzne : z = new
                          · refine absurd ⟨a ++ q, [], ?_⟩ hmb.2.1
                            rw [List.append_nil, ← hzne, List.append_assoc, ← hz]
                            exact hab
                          · have hzt : kj.drop (a ++ q).length = z := by
                              rw [← hab, hz, ← List.append_assoc]
                              exact List.drop_left _ _
                            have hn0' : 0 < (a ++ q).length := by
                              rw [List.length_append]
                              have := List.length_pos.mpr ha0
                              omega
                            have hkjlen : kj.length = (a ++ q).length + z.length := by
                              rw [← hab, hz, ← List.append_assoc, List.length_append]
                            have hnl' : (a ++ q).length < kj.length := by
                              rw [hkjlen]
                              have := List.length_pos.mpr hz0
                              omega
                            have hzo : z <+: old := by
                              have h7 := (hmb.2.2 (a ++ q).length hnl' hn0').2
                              rw [hzt] at h7
                              exact h7 h6
                            obtain ⟨zr, hzr⟩ := hzo
                            refine ⟨p ++ w, zr ++ interStr old (q2 :: ps3), ?_⟩
                            rw [interStr_cons_cons]
                            show (p ++ w) ++ kj ++ (zr ++ interStr old (q2 :: ps3)) =
                              p ++ (old ++ (q ++ old ++ interStr old (q2 :: ps3)))
                            rw [← hab, hz]
                            nth_rewrite 3 [← hzr]
                            nth_rewrite 2 [← hw]
                            simp [List.append_assoc]
                      · refine absurd ⟨a ++ q, z2, ?_⟩ hmb.2.1
                        rw [← hab, hz, hz2]
                        simp [List.append_assoc]
          · obtain ⟨a, b, hab, ha0, hb0, hsa, hpb⟩ := h1
            rcases prefix_append_cases hpb with h5 | ⟨z, hz, _⟩
            · by_cases hbne : b = new
              · exact absurd ⟨a, [], by rw [List.append_nil, ← hbne]; exact hab⟩ hmb.2.1
              · have htk : kj.drop a.length = b := by
                  rw [← hab]
                  exact List.drop_left a b
                have hn0 : 0 < a.length := List.length_pos.mpr ha0
                have hnl : a.length < kj.length := by
                  rw [← hab, List.length_append]
                  have := List.length_pos.mpr hb0
                  omega
                have hbo : b <+: old := by
                  have h7 := (hmb.2.2 a.length hnl hn0).2
                  rw [htk] at h7
                  exact h7 h5
                obtain ⟨pw, hpw⟩ := hsa
                obtain ⟨br, hbr⟩ := hbo
                refine ⟨pw, br ++ interStr old (q :: ps2), ?_⟩
                show pw ++ kj ++ (br ++ interStr old (q :: ps2)) =
                  p ++ (old ++ interStr old (q :: ps2))
                rw [← hab, ← hpw, ← hbr]
                simp [List.append_assoc]
            · exact absurd ⟨a, z, by rw [← hab, hz]; simp [List.append_assoc]⟩ hmb.2.1

theorem pyReplace_eq_interStr (old new s : Str) (hold : old ≠ []) :
    pyReplace old new s = interStr new (pySplit old s) :=
  pyReplaceAux_eq_interStr old new hold s.length s (le_refl _)

theorem pySplit_reconstruct (old s : Str) (hold : old ≠ []) :
    interStr old (pySplit old s) = s :=
  interStr_pySplitAux old hold s.length s (le_refl _)

theorem pySplit_parts_free (old s : Str) (hold : old ≠ []) :
    ∀ p ∈ pySplit old s, ¬ old <:+: p :=
  pySplitAux_parts_free old hold s.length s (le_refl _)

/-- A replacement pass removes every occurrence of a self-safe `old`. -/
theorem pyReplace_kills (old new s : Str) (hold : old ≠ []) (hs : SelfSafe old new) :
    ¬ old <:+: pyReplace old new s := by
  rw [pyReplace_eq_interStr old new s hold]
  exact self_safe_interStr old new hold hs (pySplit old s) (pySplit_parts_free old s hold)

/-- A replacement pass cannot introduce an occurrence of a `MapBack`-safe
earlier key. -/
theorem pyReplace_preserves (kj old new s : Str) (hold : old ≠ [])
    (hmb : MapBack kj old new) (hfree : ¬ kj <:+: s) :
    ¬ kj <:+: pyReplace old new s := by
  rw [pyReplace_eq_interStr old new s hold]
  intro h
  apply hfree
  rw [← pySplit_reconstruct old s hold]
  exact mapback_interStr kj old new hmb (pySplit old s) h

/-- The placeholder constants of setup_mod.py (lines 32-35). -/
def OLD_PACKAGE : Str := str "com.example.modtemplate"

def OLD_MOD_ID : Str := str "examplemod"

def OLD_MOD_NAME : Str := str "Example Mod"

def OLD_AUTHOR : Str := str "yourname"

/-- Python `input(...) or default`: an empty answer falls back to the default
(setup_mod.py lines 38-42). -/
def orDefault (inp dflt : Str) : Str := if inp = [] then dflt else inp

/-- A character matched by the class `[_\-\s]` of `to_camel`'s split regex. -/
def isSepChar (c : Char) : Bool := c = '_' || c = '-' || Py.isSpace c

/-- `re.split(r"[_\-\s]+", value)`: split at each maximal run of separator
characters, keeping empty parts at the ends. -/
def splitSepsAux : Nat → Str → List Str
  | 0, s => [s]
  | fuel + 1, s =>
    match s with
    | [] => [[]]
    | c :: rest =>
        if isSepChar c then
          [] :: splitSepsAux fuel (rest.dropWhile isSepChar)
        else
          match splitSepsAux fuel rest with
          | [] => [[c]]
          | p :: ps => (c :: p) :: ps

def splitSeps (s : Str) : List Str := splitSepsAux s.length s

/-- `p[:1].upper() + p[1:]`. -/
def capitalizePart : Str → Str
  | [] => []
  | c :: rest => c.toUpper :: rest

/-- setup_mod.py lines 44-47: CamelCase the separator-split parts. -/
def to_camel (value : Str) : Str :=
  ((splitSeps value).map capitalizePart).flatten

/-- The replacements dict of setup_mod.py lines 104-113, in insertion order,
built from the effective base package, mod id, mod name and author. -/
def setupReplacements (base_package mod_id mod_name author : Str) : List (Str × Str) :=
  let class_prefix := to_camel mod_name
  [ (OLD_PACKAGE, base_package),
    (OLD_MOD_ID, mod_id),
    (OLD_MOD_NAME, mod_name),
    (OLD_AUTHOR, author),
    (str "TemplateMod", class_prefix ++ str "Mod"),
    (str "TemplateFabric", class_prefix ++ str "Fabric"),
    (str "TemplateForge", class_prefix ++ str "Forge"),
    (str "TemplateNeoForge", class_prefix ++ str "NeoForge") ]

/-- The per-file loop of setup_mod.py lines 126-128: for each pair in order,
if the old string occurs in the text, replace every occurrence. -/
def contentReplace : List (Str × Str) → Str → Str
  | [], text => text
  | (old, new) :: rest, text =>
      contentReplace rest (if old <:+: text then pyReplace old new text else text)

theorem contentReplace_cons (o n : Str) (rest : List (Str × Str)) (text : Str) :
    contentReplace ((o, n) :: rest) text =
      contentReplace rest (if o <:+: text then pyReplace o n text else text) := rfl

/-- The whole content pass of setup_mod.py on one file's text, from the raw
interactive answers (lines 38-41 apply the defaults, lines 104-132 build the
dict and rewrite the text). -/
def contentPass (bp mi mn au text : Str) : Str :=
  contentReplace
    (setupReplacements (orDefault bp OLD_PACKAGE) (orDefault mi OLD_MOD_ID)
      (orDefault mn OLD_MOD_NAME) (orDefault au OLD_AUTHOR)) text

/-- The decidable safety conditions of the amended C8: every pair is nonempty
and overlap-free with itself, and every earlier key can be mapped back across
every later pair. -/
def ReplacementsSafe (reps : List (Str × Str)) : Prop :=
  (∀ p ∈ reps, p.1 ≠ [] ∧ SelfSafe p.1 p.2) ∧
  reps.Pairwise (fun p q => MapBack p.1 q.1 q.2)

instance (reps : List (Str × Str)) : Decidable (ReplacementsSafe reps) := by
  unfold ReplacementsSafe
  infer_instance

/-- Later passes cannot reintroduce a key all of whose later pairs are
`MapBack`-safe for it. -/
theorem contentReplace_preserves (k : Str) :
    ∀ rest : List (Str × Str), (∀ q ∈ rest, q.1 ≠ [] ∧ MapBack k q.1 q.2) →
      ∀ text, ¬ k <:+: text → ¬ k <:+: contentReplace rest text := by
  intro rest
  induction rest with
  | nil =>
      intro _ text hf
      exact hf
  | cons q rest2 ih =>
      obtain ⟨o, n⟩ := q
      intro h text hf
      have h1 := h (o, n) (List.mem_cons_self _ _)
      have hrest := fun r hr => h r (List.mem_cons_of_mem _ hr)
      rw [contentReplace_cons]
      apply ih hrest
      split
      · exact pyReplace_preserves k o n text h1.1 h1.2 hf
      · exact hf

/-- Under the safety conditions, after the full pass no key of the dict still
occurs in the text. -/
theorem contentReplace_clears :
    ∀ reps : List (Str × Str), ReplacementsSafe reps →
      ∀ text, ∀ p ∈ reps, ¬ p.1 <:+: contentReplace reps text := by
  intro reps
  induction reps with
  | nil =>
      intro _ _ p hp
      exact absurd hp (List.not_mem_nil _)
  | cons q rest ih =>
      obtain ⟨o, n⟩ := q
      intro hsafe text p hp
      have hone := hsafe.1 (o, n) (List.mem_cons_self _ _)
      have hpw := List.pairwise_cons.mp hsafe.2
      have hfree0 : ¬ o <:+: (if o <:+: text then pyReplace o n text else text) := by
        split
        · exact pyReplace_kills o n text hone.1 hone.2
        · rename_i hni
          exact hni
      rw [contentReplace_cons]
      rcases List.mem_cons.mp hp with rfl | hp2
      · exact contentReplace_preserves o rest
          (fun r hr => ⟨(hsafe.1 r (List.mem_cons_of_mem _ hr)).1, hpw.1 r hr⟩) _ hfree0
      · exact ih ⟨fun r hr => hsafe.1 r (List.mem_cons_of_mem _ hr), hpw.2⟩ _ p hp2

end SetupMod

/-- Claim C9: for every character, `create_icon` writes a well-formed PNG
container: the 8-byte signature; an IHDR chunk encoding width 512, height
512, bit depth 8, colour type 6; one IDAT chunk whose data is the zlib
compression of 512 scanlines, each a filter byte 0 followed by 512 RGBA
pixels; and an empty IEND chunk — every chunk carrying its big-endian data
length and the CRC32 of its type plus data. Every pixel is opaque white or
the opaque background colour (66,135,245), and when the character's uppercase
form is not one of the 26 letters of the font table every pixel is the
background colour. (`zlib.compress` is abstracted as the `zc` parameter.) -/
theorem C9_create_icon (zc : List Nat → List Nat) (ch : Char) :
    SetupMod.create_icon zc ch =
      SetupMod.pngSignature ++
        SetupMod.chunk SetupMod.IHDRtype
          (SetupMod.be32 512 ++ SetupMod.be32 512 ++ [8, 6, 0, 0, 0]) ++
        SetupMod.chunk SetupMod.IDATtype
          (zc ((List.range 512).flatMap
            (fun y => 0 :: (List.range 512).flatMap
              (fun x => SetupMod.pixelRGBA ch y x)))) ++
        SetupMod.chunk SetupMod.IENDtype [] ∧
    (∀ y x : Nat, SetupMod.pixelRGBA ch y x = [255, 255, 255, 255] ∨
        SetupMod.pixelRGBA ch y x = [66, 135, 245, 255]) ∧
    (SetupMod.fontLookup ch.toUpper = none →
      ∀ y x : Nat, SetupMod.pixelRGBA ch y x = [66, 135, 245, 255]) := by
  refine ⟨?_, ?_, ?_⟩
  · unfold SetupMod.create_icon
    rw [SetupMod.raw_eq_scanlines]
    rfl
  · intro y x
    unfold SetupMod.pixelRGBA
    cases SetupMod.fontLookup ch.toUpper with
    | none => right; rfl
    | some rows =>
        dsimp only
        split
        · split
          · left; rfl
          · right; rfl
        · right; rfl
  · intro hnone y x
    unfold SetupMod.pixelRGBA
    rw [hnone]

/-- Witness for C9: `1` is not in the font, so the icon is all background. -/
theorem C9_create_icon_witness :
    SetupMod.fontLookup ('1'.toUpper) = none ∧
    (∀ y x : Nat, SetupMod.pixelRGBA '1' y x = [66, 135, 245, 255]) :=
  ⟨by decide, (C9_create_icon id '1').2.2 (by decide)⟩

/-- Claim C8 counterexample: the claim fails for some user-supplied values.
Answering author = `examplemod` (with base package `a.b.c`, mod id `mymod`,
mod name `My Mod`), the content pass on a file reading `yourname` rewrites it
to `examplemod`, so an occurrence of the placeholder `examplemod` remains in
the passed file — and it is not the user's mod id. -/
theorem C8_setup_content_pass_counterexample :
    SetupMod.contentPass (str "a.b.c") (str "mymod") (str "My Mod")
        (str "examplemod") (str "yourname") = str "examplemod" ∧
    SetupMod.OLD_MOD_ID <:+:
      SetupMod.contentPass (str "a.b.c") (str "mymod") (str "My Mod")
        (str "examplemod") (str "yourname") := by
  constructor
  · decide
  · decide

/-- Claim C8 (amended): whenever the effective replacement table — the dict
built from the answers after the empty-answer defaults — satisfies the
decidable overlap-safety conditions `ReplacementsSafe`, the content pass
leaves no occurrence of any placeholder key in any file text. -/
theorem C8_setup_content_pass (bp mi mn au : Str)
    (hsafe : SetupMod.ReplacementsSafe
      (SetupMod.setupReplacements (SetupMod.orDefault bp SetupMod.OLD_PACKAGE)
        (SetupMod.orDefault mi SetupMod.OLD_MOD_ID)
        (SetupMod.orDefault mn SetupMod.OLD_MOD_NAME)
        (SetupMod.orDefault au SetupMod.OLD_AUTHOR))) :
    ∀ text : Str,
      ∀ p ∈ SetupMod.setupReplacements (SetupMod.orDefault bp SetupMod.OLD_PACKAGE)
        (SetupMod.orDefault mi SetupMod.OLD_MOD_ID)
        (SetupMod.orDefault mn SetupMod.OLD_MOD_NAME)
        (SetupMod.orDefault au SetupMod.OLD_AUTHOR),
      ¬ p.1 <:+: SetupMod.contentPass bp mi mn au text := by
  intro text p hp
  exact SetupMod.contentReplace_clears _ hsafe text p hp

/-- Witness for C8: the answers qz/ww/zz/hh satisfy the safety conditions, so
after the pass on a text holding every placeholder, `examplemod` is gone. -/
theorem C8_setup_content_pass_witness :
    ¬ SetupMod.OLD_MOD_ID <:+:
      SetupMod.contentPass (str "qz") (str "ww") (str "zz") (str "hh")
        (str "examplemod yourname TemplateMod com.example.modtemplate") :=
  C8_setup_content_pass (str "qz") (str "ww") (str "zz") (str "hh") (by decide)
    (str "examplemod yourname TemplateMod com.example.modtemplate")
    (SetupMod.OLD_MOD_ID, str "ww") (by decide)

end Multiloader
